import Mathlib

/-!
Verification of the Themewalker core: a shallow embedding of the INI
parsing/patching functions of `src/config.rs` (`parse_current_theme`,
`apply_theme_to_content`) and of the selection state machine of
`src/app.rs` (`App::new`, `App::move_up`, `App::move_down`,
`App::handle_key`), together with proofs of the testable properties of
the specification.

Rust `&str` values are embedded as `List Char`.  Rust's `str::lines`
iterator (splitting at `\n`, stripping a `\r` that precedes a `\n`, with
an optional final terminator) is modelled by `rustLines`; `str::trim`
(Unicode `White_Space`) by `rustTrim`.
-/

set_option maxHeartbeats 1000000

namespace Themewalker

/-- The Unicode `White_Space` property, as used by Rust's `char::is_whitespace`
(and hence `str::trim`). -/
def isRustWs (c : Char) : Bool :=
  c == ' ' || c == '\t' || c == '\n' || c == '\u000B' || c == '\u000C' || c == '\r' ||
  c == '\u0085' || c == '\u00A0' || c == '\u1680' ||
  ('\u2000' ≤ c && c ≤ '\u200A') || c == '\u2028' || c == '\u2029' ||
  c == '\u202F' || c == '\u205F' || c == '\u3000'

/-- Drop leading whitespace (the left half of Rust's `str::trim`). -/
def trimL (l : List Char) : List Char := l.dropWhile isRustWs

/-- Drop trailing whitespace (the right half of Rust's `str::trim`). -/
def trimR (l : List Char) : List Char := (l.reverse.dropWhile isRustWs).reverse

/-- Rust's `str::trim`: drop whitespace on both ends. -/
def rustTrim (l : List Char) : List Char := trimL (trimR l)

/-- Strip one carriage return from the end of a line, as Rust's `str::lines`
does for lines terminated by `\r\n`. -/
def stripCR (l : List Char) : List Char :=
  if l.getLast? = some '\r' then l.dropLast else l

/-- Worker for `rustLines`: `acc` holds the reversed characters of the current
line.  A `\n` ends a line (whose terminating `\r`, if any, is stripped); a
final line without terminator is emitted as-is. -/
def rustLinesAux : List Char → List Char → List (List Char)
  | acc, [] => [acc.reverse]
  | acc, c :: rest =>
    if c = '\n' then
      if rest = [] then [stripCR acc.reverse]
      else stripCR acc.reverse :: rustLinesAux [] rest
    else rustLinesAux (c :: acc) rest

/-- Rust's `str::lines`: the empty string has no lines; otherwise split at
`\n`, treating `\r\n` as a single terminator, the final one optional. -/
def rustLines (s : List Char) : List (List Char) :=
  if s = [] then [] else rustLinesAux [] s

/-- Concatenate lines, terminating every line with `\n` — this is how
`apply_theme_to_content` rebuilds its output (`result.push_str(line);
result.push('\n')`). -/
def unlinesN : List (List Char) → List Char
  | [] => []
  | l :: ls => l ++ '\n' :: unlinesN ls

/-- The recognized section header `"[Theme]"`. -/
def hdTheme : List Char := "[Theme]".toList

/-- The recognized key prefix `"Current="`. -/
def keyPre : List Char := "Current=".toList

/-- Rust's `str::strip_prefix`. -/
def stripPre (p l : List Char) : Option (List Char) :=
  if p.isPrefixOf l then some (l.drop p.length) else none

/-! ## `parse_current_theme` (src/config.rs, lines 131-149)

The Rust loop walks `content.lines()` carrying the mutable flag `in_theme`.
`parseLoop` is that loop; its second result component is the final value of
`in_theme` (used only for compositional reasoning). -/

/-- The scanning loop of `parse_current_theme`: a header line re-targets
`in_theme`; inside `[Theme]`, a line whose trimmed text starts with
`Current=` yields its trimmed remainder when that remainder is non-empty,
otherwise scanning continues. -/
def parseLoop : Bool → List (List Char) → Option (List Char) × Bool
  | inTheme, [] => (none, inTheme)
  | inTheme, l :: rest =>
    let t := rustTrim l
    if t.head? = some '[' then parseLoop (t == hdTheme) rest
    else if inTheme then
      match stripPre keyPre t with
      | some val =>
        let v := rustTrim val
        if v = [] then parseLoop inTheme rest else (some v, inTheme)
      | none => parseLoop inTheme rest
    else parseLoop inTheme rest

/-- Extract the value of `Current=` from the `[Theme]` section
(src/config.rs `parse_current_theme`). -/
def parse_current_theme (content : List Char) : Option (List Char) :=
  (parseLoop false (rustLines content)).1

/-! ## `apply_theme_to_content` (src/config.rs, lines 160-212)

The Rust function pushes each processed line followed by `'\n'` onto a
string buffer, so it is modelled at the line level and rendered with
`unlinesN` at the end.  (The guard at config.rs line 203 — add a `'\n'`
when the buffer is non-empty and unterminated — can never fire, because
every push leaves the buffer empty or `'\n'`-terminated; it is therefore
not part of the model.) -/

/-- The three mutable flags of `apply_theme_to_content`'s loop. -/
structure ApSt where
  inTheme : Bool
  foundSection : Bool
  foundKey : Bool
deriving DecidableEq, Repr

/-- The replacement key line `Current=<theme>`. -/
def newKeyLine (theme : List Char) : List Char := keyPre ++ theme

/-- One iteration of the `apply_theme_to_content` loop: on a header line,
first inject the key when leaving a `[Theme]` section that had none, then
re-target `in_theme`; inside `[Theme]` a `Current=` line is replaced; any
other line is copied verbatim. -/
def apStep (theme : List Char) (st : ApSt) (l : List Char) : List (List Char) × ApSt :=
  let t := rustTrim l
  if t.head? = some '[' then
    let inj := st.inTheme && !st.foundKey
    let inT := t == hdTheme
    ((if inj then [newKeyLine theme] else []) ++ [l],
     ⟨inT, st.foundSection || inT, st.foundKey || inj⟩)
  else if st.inTheme && keyPre.isPrefixOf t then
    ([newKeyLine theme], ⟨st.inTheme, st.foundSection, true⟩)
  else ([l], st)

/-- The full loop of `apply_theme_to_content` over the input lines. -/
def apLoop (theme : List Char) : ApSt → List (List Char) → List (List Char) × ApSt
  | st, [] => ([], st)
  | st, l :: rest =>
    ((apStep theme st l).1 ++ (apLoop theme (apStep theme st l).2 rest).1,
     (apLoop theme (apStep theme st l).2 rest).2)

/-- `apply_theme_to_content` at the line level: run the loop, then the two
end-of-file fixups — inject the key when still inside `[Theme]` without one,
and append a fresh `\n[Theme]\nCurrent=…\n` block when the section (or key)
was never produced. -/
def applyLines (theme : List Char) (ls : List (List Char)) : List (List Char) :=
  let r := apLoop theme ⟨false, false, false⟩ ls
  let st := r.2
  let out2 := if st.inTheme && !st.foundKey then r.1 ++ [newKeyLine theme] else r.1
  let fk2 := st.foundKey || (st.inTheme && !st.foundKey)
  if !st.foundSection || !fk2 then out2 ++ [[], hdTheme, newKeyLine theme] else out2

/-- Return a new copy of `content` with `Current=<theme>` set inside `[Theme]`
(src/config.rs `apply_theme_to_content`). -/
def apply_theme_to_content (content theme : List Char) : List Char :=
  unlinesN (applyLines theme (rustLines content))

/-! ## The selection state machine (src/app.rs)

`ListState` is modelled by its `selected()` component; `KeyCode` by the
constructors the program distinguishes (every other key is `other`).
The `expect` panic in `handle_confirming_key` is modelled by an `Option`
result of `handle_key`: `none` is the panic. -/

/-- One discovered theme (src/theme.rs `SddmTheme`). -/
structure SddmTheme where
  name : List Char
  path : List Char
  description : Option (List Char)
  author : Option (List Char)
deriving DecidableEq, Repr

/-- UI modes (src/app.rs `Mode`). -/
inductive Mode
  | Browsing
  | Confirming
deriving DecidableEq, Repr

/-- Exit decisions (src/app.rs `ExitAction`). -/
inductive ExitAction
  | Quit
  | ApplyTheme (name : List Char)
deriving DecidableEq, Repr

/-- The key codes the program inspects; `other` stands for every other
`crossterm` key code (all of which fall into the `_` match arms). -/
inductive KeyCode
  | up
  | down
  | enter
  | esc
  | char (c : Char)
  | other
deriving DecidableEq, Repr

/-- Central application state (src/app.rs `App`).  `listSelected` is
`list_state.selected()`. -/
structure App where
  themes : List SddmTheme
  listSelected : Option Nat
  current_theme : Option (List Char)
  mode : Mode
  status : Option (List Char)
deriving DecidableEq, Repr

/-- Rust's `Iterator::position`. -/
def position (p : α → Bool) : List α → Option Nat
  | [] => none
  | x :: xs => if p x then some 0 else (position p xs).map (· + 1)

/-- Build the initial state (src/app.rs `App::new`); `cfgCurrent` is the
`current_theme` of the loaded `SddmConfig`. -/
def App.new (themes : List SddmTheme) (cfgCurrent : Option (List Char)) : App :=
  let initialSelection :=
    (cfgCurrent.bind fun nm => position (fun t => t.name == nm) themes).getD 0
  { themes := themes
    listSelected := if themes.isEmpty then none else some initialSelection
    current_theme := cfgCurrent
    mode := Mode.Browsing
    status := if themes.isEmpty
      then some "No themes found in /usr/share/sddm/themes/".toList
      else none }

/-- Index of the highlighted item (src/app.rs `App::selected_index`). -/
def App.selected_index (a : App) : Option Nat := a.listSelected

/-- The theme currently highlighted (src/app.rs `App::highlighted_theme`). -/
def App.highlighted_theme (a : App) : Option SddmTheme :=
  a.selected_index.bind fun i => a.themes.get? i

/-- Cursor up with wraparound (src/app.rs `App::move_up`). -/
def App.move_up (a : App) : App :=
  if a.themes.isEmpty then a
  else
    let next :=
      match a.listSelected with
      | some 0 | none => a.themes.length - 1
      | some (i + 1) => i
    { a with listSelected := some next }

/-- Cursor down with wraparound (src/app.rs `App::move_down`). -/
def App.move_down (a : App) : App :=
  if a.themes.isEmpty then a
  else
    let next :=
      match a.listSelected with
      | none => 0
      | some i => (i + 1) % a.themes.length
    { a with listSelected := some next }

/-- Key handling in `Browsing` mode (src/app.rs `App::handle_browsing_key`). -/
def App.handle_browsing_key (a : App) (code : KeyCode) : Option (App × Option ExitAction) :=
  match code with
  | KeyCode.up | KeyCode.char 'k' => some (a.move_up, none)
  | KeyCode.down | KeyCode.char 'j' => some (a.move_down, none)
  | KeyCode.enter =>
    if a.themes.isEmpty then some (a, none)
    else some ({ a with mode := Mode.Confirming }, none)
  | KeyCode.char 'q' | KeyCode.esc => some (a, some ExitAction.Quit)
  | _ => some (a, none)

/-- Key handling in `Confirming` mode (src/app.rs `App::handle_confirming_key`);
`none` models the `expect` panic on a missing selection. -/
def App.handle_confirming_key (a : App) (code : KeyCode) : Option (App × Option ExitAction) :=
  match code with
  | KeyCode.enter | KeyCode.char 'y' | KeyCode.char 'Y' =>
    (match a.highlighted_theme with
     | some t => some (a, some (ExitAction.ApplyTheme t.name))
     | none => none)
  | KeyCode.char 'n' | KeyCode.char 'N' | KeyCode.esc =>
    some ({ a with mode := Mode.Browsing }, none)
  | _ => some (a, none)

/-- Process a key press (src/app.rs `App::handle_key`). -/
def App.handle_key (a : App) (code : KeyCode) : Option (App × Option ExitAction) :=
  match a.mode with
  | Mode.Browsing => a.handle_browsing_key code
  | Mode.Confirming => a.handle_confirming_key code

/-- The states reachable from `App::new` by any sequence of (non-panicking)
`handle_key` calls. -/
inductive Reachable : App → Prop
  | base (themes : List SddmTheme) (cfg : Option (List Char)) :
      Reachable (App.new themes cfg)
  | step {a a' : App} {c : KeyCode} {act : Option ExitAction} :
      Reachable a → a.handle_key c = some (a', act) → Reachable a'

/-! ## Basic lemmas about the primitives -/

lemma unlinesN_cons (l : List Char) (ls : List (List Char)) :
    unlinesN (l :: ls) = l ++ '\n' :: unlinesN ls := rfl

lemma unlinesN_append (xs ys : List (List Char)) :
    unlinesN (xs ++ ys) = unlinesN xs ++ unlinesN ys := by
  induction xs with
  | nil => rfl
  | cons l xs ih => simp [unlinesN_cons, ih]

lemma unlinesN_eq_nil_iff (ls : List (List Char)) : unlinesN ls = [] ↔ ls = [] := by
  cases ls with
  | nil => simp [unlinesN]
  | cons l ls => simp [unlinesN_cons]

lemma unlinesN_split (ls : List (List Char)) (h : ls ≠ []) :
    ∃ x, unlinesN ls = x ++ ['\n'] := by
  induction ls with
  | nil => exact absurd rfl h
  | cons l ls ih =>
    cases ls with
    | nil => exact ⟨l, rfl⟩
    | cons l' ls' =>
      obtain ⟨x, hx⟩ := ih (by simp)
      exact ⟨l ++ '\n' :: x, by simp [unlinesN_cons, hx]⟩

lemma unlinesN_getLast (ls : List (List Char)) (h : ls ≠ []) :
    (unlinesN ls).getLast? = some '\n' := by
  obtain ⟨x, hx⟩ := unlinesN_split ls h
  rw [hx, List.getLast?_append_cons]
  rfl

/-! ## C9: patching the empty document -/

/-- C9: for every value `V`, applying the patch to the empty string produces
exactly the blank-separated minimal block `\n[Theme]\nCurrent=V\n`, which in
particular contains the `[Theme]` header and the `Current=V` key line and
nothing else. -/
theorem C9_empty_document (V : List Char) :
    apply_theme_to_content [] V = '\n' :: (hdTheme ++ '\n' :: (keyPre ++ V ++ ['\n'])) ∧
    (∃ x y, apply_theme_to_content [] V = x ++ hdTheme ++ y) ∧
    (∃ x y, apply_theme_to_content [] V = x ++ (keyPre ++ V) ++ y) := by
  have h : apply_theme_to_content [] V
      = '\n' :: (hdTheme ++ '\n' :: (keyPre ++ V ++ ['\n'])) := by
    simp [apply_theme_to_content, rustLines, applyLines, apLoop, unlinesN, newKeyLine]
  refine ⟨h, ⟨['\n'], '\n' :: (keyPre ++ V ++ ['\n']), by simp [h]⟩,
    ⟨'\n' :: hdTheme ++ ['\n'], ['\n'], by simp [h]⟩⟩

/-! ## C10: the output is non-empty and newline-terminated -/

lemma apStep_fst_ne_nil (θ : List Char) (st : ApSt) (l : List Char) :
    (apStep θ st l).1 ≠ [] := by
  by_cases h1 : (rustTrim l).head? = some '['
  · simp [apStep, h1]
  · by_cases h2 : (st.inTheme && keyPre.isPrefixOf (rustTrim l)) = true
    · simp [apStep, h1, h2]
    · simp [apStep, h1, h2]

lemma apLoop_fst_ne_nil (θ : List Char) (st : ApSt) (ls : List (List Char))
    (h : ls ≠ []) : (apLoop θ st ls).1 ≠ [] := by
  cases ls with
  | nil => exact absurd rfl h
  | cons l rest =>
    show (apStep θ st l).1 ++ _ ≠ []
    simp [apStep_fst_ne_nil]

lemma applyLines_ne_nil (θ : List Char) (ls : List (List Char)) :
    applyLines θ ls ≠ [] := by
  cases ls with
  | nil => simp [applyLines, apLoop]
  | cons l rest =>
    have h := apLoop_fst_ne_nil θ ⟨false, false, false⟩ (l :: rest) (by simp)
    simp only [applyLines]
    split <;> split <;> simp_all

/-- C10: for every input document (with or without trailing newline, empty
included) and every value, the patched output is non-empty and ends with a
newline character. -/
theorem C10_trailing_newline (doc V : List Char) :
    apply_theme_to_content doc V ≠ [] ∧
    (apply_theme_to_content doc V).getLast? = some '\n' := by
  constructor
  · rw [apply_theme_to_content, Ne, unlinesN_eq_nil_iff]
    exact applyLines_ne_nil V (rustLines doc)
  · exact unlinesN_getLast _ (applyLines_ne_nil V (rustLines doc))

/-! ## C6: cursor wraparound -/

lemma move_down_spec (a : App) (h : a.themes ≠ []) (i : Nat)
    (hi : a.listSelected = some i) :
    a.move_down.themes = a.themes ∧
    a.move_down.listSelected = some ((i + 1) % a.themes.length) := by
  have he : a.themes.isEmpty = false := by
    cases hl : a.themes with
    | nil => exact absurd hl h
    | cons x xs => rfl
  constructor <;> simp [App.move_down, he, hi]

lemma move_up_spec (a : App) (h : a.themes ≠ []) (i : Nat)
    (hi : a.listSelected = some i) (hlt : i < a.themes.length) :
    a.move_up.themes = a.themes ∧
    a.move_up.listSelected = some ((i + (a.themes.length - 1)) % a.themes.length) := by
  have hpos : 0 < a.themes.length := List.length_pos.mpr h
  have he : a.themes.isEmpty = false := by
    cases hl : a.themes with
    | nil => exact absurd hl h
    | cons x xs => rfl
  refine ⟨by simp [App.move_up, he], ?_⟩
  cases i with
  | zero =>
    have : (0 + (a.themes.length - 1)) % a.themes.length = a.themes.length - 1 := by
      rw [Nat.zero_add, Nat.mod_eq_of_lt (Nat.sub_lt hpos Nat.one_pos)]
    simp [App.move_up, he, hi, this]
  | succ k =>
    have h1 : (k + 1) + (a.themes.length - 1) = k + a.themes.length := by omega
    have h2 : ((k + 1) + (a.themes.length - 1)) % a.themes.length = k := by
      rw [h1, Nat.add_mod_right, Nat.mod_eq_of_lt (by omega)]
    simp [App.move_up, he, hi, h2]

lemma iterate_move_down (a : App) (h : a.themes ≠ []) (i : Nat)
    (hi : a.listSelected = some i) (hlt : i < a.themes.length) (n : Nat) :
    (App.move_down^[n] a).themes = a.themes ∧
    (App.move_down^[n] a).listSelected = some ((i + n) % a.themes.length) := by
  induction n with
  | zero => simpa [Nat.mod_eq_of_lt hlt] using hi
  | succ n ih =>
    rw [Function.iterate_succ_apply']
    have hth : (App.move_down^[n] a).themes = a.themes := ih.1
    have := move_down_spec (App.move_down^[n] a) (hth ▸ h) _ ih.2
    refine ⟨by rw [this.1, hth], ?_⟩
    rw [this.2, hth, Nat.mod_add_mod, Nat.add_assoc]

lemma iterate_move_up (a : App) (h : a.themes ≠ []) (i : Nat)
    (hi : a.listSelected = some i) (hlt : i < a.themes.length) (n : Nat) :
    (App.move_up^[n] a).themes = a.themes ∧
    (App.move_up^[n] a).listSelected
      = some ((i + n * (a.themes.length - 1)) % a.themes.length) := by
  have hpos : 0 < a.themes.length := List.length_pos.mpr h
  induction n with
  | zero => simpa [Nat.mod_eq_of_lt hlt] using hi
  | succ n ih =>
    rw [Function.iterate_succ_apply']
    have hth : (App.move_up^[n] a).themes = a.themes := ih.1
    have hsel := ih.2
    have hm : (i + n * (a.themes.length - 1)) % a.themes.length < a.themes.length :=
      Nat.mod_lt _ hpos
    have := move_up_spec (App.move_up^[n] a) (hth ▸ h) _ hsel (by rw [hth]; exact hm)
    refine ⟨by rw [this.1, hth], ?_⟩
    rw [this.2, hth, Nat.mod_add_mod]
    have harith : i + n * (a.themes.length - 1) + (a.themes.length - 1)
        = i + (n + 1) * (a.themes.length - 1) := by
      rw [Nat.succ_mul]
      omega
    rw [harith]

/-- C6: for every `App` with a non-empty theme list and any valid cursor
index, `move_down` iterated `len` times returns the cursor to its start, and
so does `move_up`; moreover `move_down` from index `len-1` yields `0` and
`move_up` from index `0` yields `len-1`. -/
theorem C6_cursor_wraparound (a : App) (i : Nat) (h : a.themes ≠ [])
    (hi : a.listSelected = some i) (hlt : i < a.themes.length) :
    (App.move_down^[a.themes.length] a).listSelected = some i ∧
    (App.move_up^[a.themes.length] a).listSelected = some i ∧
    (i = a.themes.length - 1 → a.move_down.listSelected = some 0) ∧
    (i = 0 → a.move_up.listSelected = some (a.themes.length - 1)) := by
  have hpos : 0 < a.themes.length := List.length_pos.mpr h
  refine ⟨?_, ?_, ?_, ?_⟩
  · rw [(iterate_move_down a h i hi hlt a.themes.length).2,
      Nat.add_mod_right, Nat.mod_eq_of_lt hlt]
  · rw [(iterate_move_up a h i hi hlt a.themes.length).2]
    have : (i + a.themes.length * (a.themes.length - 1)) % a.themes.length = i % a.themes.length := by
      rw [Nat.mul_comm]
      exact Nat.add_mul_mod_self_right _ _ _
    rw [this, Nat.mod_eq_of_lt hlt]
  · intro hlast
    rw [(move_down_spec a h i hi).2, hlast]
    have : (a.themes.length - 1 + 1) % a.themes.length = 0 := by
      rw [Nat.sub_add_cancel hpos, Nat.mod_self]
    rw [this]
  · intro h0
    rw [(move_up_spec a h i hi hlt).2, h0, Nat.zero_add,
      Nat.mod_eq_of_lt (Nat.sub_lt hpos Nat.one_pos)]

/-- C6 witness: the wraparound property checked on a concrete three-theme app
with the cursor at index 0. -/
theorem C6_cursor_wraparound_witness :
    (App.new [⟨"alpha".toList, "/tmp".toList, none, none⟩,
              ⟨"beta".toList, "/tmp".toList, none, none⟩,
              ⟨"gamma".toList, "/tmp".toList, none, none⟩] none).themes ≠ [] ∧
    (App.new [⟨"alpha".toList, "/tmp".toList, none, none⟩,
              ⟨"beta".toList, "/tmp".toList, none, none⟩,
              ⟨"gamma".toList, "/tmp".toList, none, none⟩] none).listSelected = some 0 ∧
    (0 : Nat) < (App.new [⟨"alpha".toList, "/tmp".toList, none, none⟩,
              ⟨"beta".toList, "/tmp".toList, none, none⟩,
              ⟨"gamma".toList, "/tmp".toList, none, none⟩] none).themes.length ∧
    ((App.move_down^[(App.new [⟨"alpha".toList, "/tmp".toList, none, none⟩,
              ⟨"beta".toList, "/tmp".toList, none, none⟩,
              ⟨"gamma".toList, "/tmp".toList, none, none⟩] none).themes.length]
        (App.new [⟨"alpha".toList, "/tmp".toList, none, none⟩,
              ⟨"beta".toList, "/tmp".toList, none, none⟩,
              ⟨"gamma".toList, "/tmp".toList, none, none⟩] none)).listSelected = some 0) := by
  refine ⟨by decide, by decide, by decide, ?_⟩
  exact (C6_cursor_wraparound _ 0 (by decide) (by decide) (by decide)).1

/-! ## C3: extraction semantics -/

/-- Specification-side scan: the trimmed remainders of every line inside a
recognized `[Theme]` section whose trimmed text starts with `Current=`, in
document order (used to state which of those values the extraction picks). -/
def themeKeyValues : Bool → List (List Char) → List (List Char)
  | _, [] => []
  | b, l :: rest =>
    let t := rustTrim l
    if t.head? = some '[' then themeKeyValues (t == hdTheme) rest
    else if b then
      match stripPre keyPre t with
      | some val => rustTrim val :: themeKeyValues b rest
      | none => themeKeyValues b rest
    else themeKeyValues b rest

lemma parseLoop_eq_filter (ls : List (List Char)) : ∀ b,
    (parseLoop b ls).1 = ((themeKeyValues b ls).filter (fun v => !v.isEmpty)).head? := by
  induction ls with
  | nil => intro b; simp [parseLoop, themeKeyValues]
  | cons l rest ih =>
    intro b
    by_cases h1 : (rustTrim l).head? = some '['
    · simp [parseLoop, themeKeyValues, h1, ih]
    · cases b with
      | false => simp [parseLoop, themeKeyValues, h1, ih]
      | true =>
        cases hsp : stripPre keyPre (rustTrim l) with
        | none => simp [parseLoop, themeKeyValues, h1, hsp, ih]
        | some val =>
          by_cases hv : rustTrim val = []
          · simp [parseLoop, themeKeyValues, h1, hsp, hv, ih]
          · simp [parseLoop, themeKeyValues, h1, hsp, hv]

/-- C3 (amended): while scanning inside the `[Theme]` section, the extraction
returns the FIRST `Current=` value whose trimmed remainder is non-empty;
`Current=` lines with an empty trimmed remainder are skipped (scanning
continues past them), and duplicates after the first non-empty match are
ignored. -/
theorem C3_extraction_first_nonempty (content : List Char) :
    parse_current_theme content
      = ((themeKeyValues false (rustLines content)).filter (fun v => !v.isEmpty)).head? :=
  parseLoop_eq_filter (rustLines content) false

/-- C3 counterexample: on `"[Theme]\nCurrent=\nCurrent=x\n"` the claim
predicts `none` (first `Current=` line wins, empty value treated as absent,
the later duplicate ignored), but the code skips the empty-valued line and
returns the later duplicate's value `"x"`. -/
theorem C3_counterexample :
    parse_current_theme "[Theme]\nCurrent=\nCurrent=x\n".toList = some "x".toList ∧
    parse_current_theme "[Theme]\nCurrent=\nCurrent=x\n".toList ≠ none := by
  constructor
  · decide
  · decide

/-! ## C7/C8: state-machine invariants -/

/-- The reachable-state invariant: the cursor is `none` exactly on an empty
list and otherwise a valid index, and `Confirming` implies a non-empty list. -/
def goodApp (a : App) : Prop :=
  (a.themes = [] → a.listSelected = none) ∧
  (a.themes ≠ [] → ∃ i, a.listSelected = some i ∧ i < a.themes.length) ∧
  (a.mode = Mode.Confirming → a.themes ≠ [])

lemma position_lt (p : α → Bool) : ∀ (l : List α) (i : Nat),
    position p l = some i → i < l.length := by
  intro l
  induction l with
  | nil => intro i h; simp [position] at h
  | cons x xs ih =>
    intro i h
    rw [position] at h
    by_cases hp : p x
    · rw [if_pos hp] at h
      cases h
      simp
    · rw [if_neg hp, Option.map_eq_some'] at h
      obtain ⟨j, hj, hij⟩ := h
      subst hij
      simpa using Nat.succ_lt_succ (ih j hj)

lemma get?_of_lt : ∀ (l : List α) (i : Nat), i < l.length → ∃ t, l.get? i = some t := by
  intro l
  induction l with
  | nil => intro i h; simp at h
  | cons x xs ih =>
    intro i h
    cases i with
    | zero => exact ⟨x, rfl⟩
    | succ j => exact ih j (by simpa using h)

lemma new_themes (themes : List SddmTheme) (cfg : Option (List Char)) :
    (App.new themes cfg).themes = themes := rfl

lemma new_mode (themes : List SddmTheme) (cfg : Option (List Char)) :
    (App.new themes cfg).mode = Mode.Browsing := rfl

lemma new_sel (themes : List SddmTheme) (cfg : Option (List Char)) :
    (App.new themes cfg).listSelected
      = if themes.isEmpty then none
        else some ((cfg.bind fun nm => position (fun t => t.name == nm) themes).getD 0) := rfl

lemma new_good (themes : List SddmTheme) (cfg : Option (List Char)) :
    goodApp (App.new themes cfg) := by
  refine ⟨?_, ?_, ?_⟩
  · intro h
    rw [new_themes] at h
    rw [new_sel, if_pos (by simp [h])]
  · intro h
    rw [new_themes] at h
    have he : themes.isEmpty = false := by
      cases themes with
      | nil => exact absurd rfl h
      | cons x xs => rfl
    rw [new_sel, if_neg (by simp [he]), new_themes]
    refine ⟨_, rfl, ?_⟩
    cases hb : cfg.bind fun nm => position (fun t => t.name == nm) themes with
    | none => simpa [hb] using List.length_pos.mpr h
    | some i =>
      obtain ⟨nm, _, hpos⟩ := Option.bind_eq_some.mp hb
      simpa [hb] using position_lt _ themes i hpos
  · intro h
    rw [new_mode] at h
    cases h

lemma move_up_mode (a : App) : a.move_up.mode = a.mode := by
  unfold App.move_up
  split <;> rfl

lemma move_down_mode (a : App) : a.move_down.mode = a.mode := by
  unfold App.move_down
  split <;> rfl

lemma move_up_good (a : App) (hg : goodApp a) : goodApp a.move_up := by
  by_cases h : a.themes = []
  · have he : a.themes.isEmpty = true := by simp [h]
    simpa [App.move_up, he] using hg
  · obtain ⟨i, hsel, hlt⟩ := hg.2.1 h
    have hs := move_up_spec a h i hsel hlt
    refine ⟨fun hc => absurd hc (hs.1 ▸ h), fun _ => ⟨_, hs.2, ?_⟩, ?_⟩
    · rw [hs.1]
      exact Nat.mod_lt _ (List.length_pos.mpr h)
    · intro _
      rw [hs.1]
      exact h

lemma move_down_good (a : App) (hg : goodApp a) : goodApp a.move_down := by
  by_cases h : a.themes = []
  · have he : a.themes.isEmpty = true := by simp [h]
    simpa [App.move_down, he] using hg
  · obtain ⟨i, hsel, hlt⟩ := hg.2.1 h
    have hs := move_down_spec a h i hsel
    refine ⟨fun hc => absurd hc (hs.1 ▸ h), fun _ => ⟨_, hs.2, ?_⟩, ?_⟩
    · rw [hs.1]
      exact Nat.mod_lt _ (List.length_pos.mpr h)
    · intro _
      rw [hs.1]
      exact h

lemma handle_browsing_good (a : App) (c : KeyCode) (a' : App) (act : Option ExitAction)
    (hg : goodApp a) (h : a.handle_browsing_key c = some (a', act)) : goodApp a' := by
  unfold App.handle_browsing_key at h
  split at h <;>
    first
    | (cases h; exact move_up_good a hg)
    | (cases h; exact move_down_good a hg)
    | (split at h
       · cases h
         exact hg
       · cases h
         next he =>
           have hne : a.themes ≠ [] := by
             intro hnil
             exact he (by simp [hnil])
           exact ⟨hg.1, fun _ => hg.2.1 hne, fun _ => hne⟩)
    | (cases h; exact hg)

lemma handle_confirming_good (a : App) (c : KeyCode) (a' : App) (act : Option ExitAction)
    (hg : goodApp a) (h : a.handle_confirming_key c = some (a', act)) : goodApp a' := by
  unfold App.handle_confirming_key at h
  split at h <;>
    first
    | (split at h
       · cases h
         exact hg
       · cases h)
    | (cases h; exact ⟨hg.1, hg.2.1, fun hc => absurd hc (by simp)⟩)
    | (cases h; exact hg)

lemma reachable_good (a : App) (h : Reachable a) : goodApp a := by
  induction h with
  | base themes cfg => exact new_good themes cfg
  | step hr hk ih =>
    rename_i a a' c act
    unfold App.handle_key at hk
    split at hk
    · exact handle_browsing_good _ _ _ _ ih hk
    · exact handle_confirming_good _ _ _ _ ih hk

lemma handle_key_browsing (a : App) (c : KeyCode) (h : a.mode = Mode.Browsing) :
    a.handle_key c = a.handle_browsing_key c := by
  unfold App.handle_key
  rw [h]

lemma handle_key_confirming (a : App) (c : KeyCode) (h : a.mode = Mode.Confirming) :
    a.handle_key c = a.handle_confirming_key c := by
  unfold App.handle_key
  rw [h]

/-- C7: in every state reachable from `App::new`, `Confirming` mode implies a
non-empty theme list and a valid cursor index, and `Confirming` can only be
entered from `Browsing` by the Enter key with a non-empty list. -/
theorem C7_mode_invariant (a : App) (h : Reachable a) :
    (a.mode = Mode.Confirming →
      a.themes ≠ [] ∧ ∃ i, a.listSelected = some i ∧ i < a.themes.length) ∧
    (∀ c a' act, a.handle_key c = some (a', act) → a'.mode = Mode.Confirming →
      a.mode = Mode.Confirming ∨
        (a.mode = Mode.Browsing ∧ c = KeyCode.enter ∧ a.themes ≠ [])) := by
  have hg := reachable_good a h
  constructor
  · intro hm
    have hne := hg.2.2 hm
    exact ⟨hne, hg.2.1 hne⟩
  · intro c a' act hk hm'
    cases hmode : a.mode with
    | Confirming => exact Or.inl rfl
    | Browsing =>
      refine Or.inr ⟨rfl, ?_⟩
      rw [handle_key_browsing a c hmode] at hk
      unfold App.handle_browsing_key at hk
      split at hk
      · cases hk
        rw [move_up_mode, hmode] at hm'
        exact absurd hm' (by simp)
      · cases hk
        rw [move_up_mode, hmode] at hm'
        exact absurd hm' (by simp)
      · cases hk
        rw [move_down_mode, hmode] at hm'
        exact absurd hm' (by simp)
      · cases hk
        rw [move_down_mode, hmode] at hm'
        exact absurd hm' (by simp)
      · split at hk
        · cases hk
          rw [hmode] at hm'
          exact absurd hm' (by simp)
        · cases hk
          next he =>
            have hne : a.themes ≠ [] := by
              intro hnil
              exact he (by simp [hnil])
            exact ⟨rfl, hne⟩
      · cases hk
        rw [hmode] at hm'
        exact absurd hm' (by simp)
      · cases hk
        rw [hmode] at hm'
        exact absurd hm' (by simp)
      · cases hk
        rw [hmode] at hm'
        exact absurd hm' (by simp)

/-- C7 witness: a concrete `Confirming` state reached from `App::new` by
pressing Enter, at which the invariant is instantiated. -/
theorem C7_mode_invariant_witness :
    Reachable { App.new [⟨"alpha".toList, "/tmp".toList, none, none⟩] none
                  with mode := Mode.Confirming } ∧
    ({ App.new [⟨"alpha".toList, "/tmp".toList, none, none⟩] none
         with mode := Mode.Confirming }.themes ≠ [] ∧
      ∃ i, { App.new [⟨"alpha".toList, "/tmp".toList, none, none⟩] none
               with mode := Mode.Confirming }.listSelected = some i ∧
        i < { App.new [⟨"alpha".toList, "/tmp".toList, none, none⟩] none
                with mode := Mode.Confirming }.themes.length) := by
  have hstep : (App.new [⟨"alpha".toList, "/tmp".toList, none, none⟩] none).handle_key
      KeyCode.enter
      = some ({ App.new [⟨"alpha".toList, "/tmp".toList, none, none⟩] none
                  with mode := Mode.Confirming }, none) := by decide
  have hr := Reachable.step (Reachable.base _ _) hstep
  exact ⟨hr, (C7_mode_invariant _ hr).1 rfl⟩

/-- C8: in every reachable state, `handle_key` never reaches the
`expect` panic (it is total), and in `Confirming` mode every confirm key
(Enter, `y`, `Y`) returns `ApplyTheme` with the name of the theme under the
cursor. -/
theorem C8_confirm_totality (a : App) (h : Reachable a) :
    (∀ c, a.handle_key c ≠ none) ∧
    (a.mode = Mode.Confirming →
      ∀ c, c = KeyCode.enter ∨ c = KeyCode.char 'y' ∨ c = KeyCode.char 'Y' →
        ∃ i t, a.listSelected = some i ∧ a.themes.get? i = some t ∧
          a.handle_key c = some (a, some (ExitAction.ApplyTheme t.name))) := by
  have hg := reachable_good a h
  have hhl : a.mode = Mode.Confirming →
      ∃ i t, a.listSelected = some i ∧ a.themes.get? i = some t ∧
        a.highlighted_theme = some t := by
    intro hm
    obtain ⟨i, hsel, hlt⟩ := hg.2.1 (hg.2.2 hm)
    obtain ⟨t, hget⟩ := get?_of_lt a.themes i hlt
    have hbind : a.highlighted_theme = a.themes.get? i := by
      unfold App.highlighted_theme App.selected_index
      rw [hsel]
      rfl
    exact ⟨i, t, hsel, hget, hbind.trans hget⟩
  constructor
  · intro c
    cases hmode : a.mode with
    | Browsing =>
      rw [handle_key_browsing a c hmode]
      unfold App.handle_browsing_key
      split <;> first
        | (split <;> simp)
        | simp
    | Confirming =>
      rw [handle_key_confirming a c hmode]
      obtain ⟨i, t, hsel, hget, hhlt⟩ := hhl hmode
      unfold App.handle_confirming_key
      split <;> first
        | (rw [hhlt]; simp)
        | simp
  · intro hm c hc
    obtain ⟨i, t, hsel, hget, hhlt⟩ := hhl hm
    refine ⟨i, t, hsel, hget, ?_⟩
    rcases hc with rfl | rfl | rfl <;>
      rw [handle_key_confirming a _ hm] <;>
      simp [App.handle_confirming_key, hhlt]

/-- C8 witness: a concrete reachable `Confirming` state at which pressing
Enter is shown to produce `ApplyTheme` of the highlighted theme. -/
theorem C8_confirm_totality_witness :
    Reachable { App.new [⟨"beta".toList, "/tmp".toList, none, none⟩] none
                  with mode := Mode.Confirming } ∧
    ({ App.new [⟨"beta".toList, "/tmp".toList, none, none⟩] none
         with mode := Mode.Confirming }.mode = Mode.Confirming ∧
      ∃ i t, { App.new [⟨"beta".toList, "/tmp".toList, none, none⟩] none
                 with mode := Mode.Confirming }.listSelected = some i ∧
        { App.new [⟨"beta".toList, "/tmp".toList, none, none⟩] none
            with mode := Mode.Confirming }.themes.get? i = some t ∧
        { App.new [⟨"beta".toList, "/tmp".toList, none, none⟩] none
            with mode := Mode.Confirming }.handle_key KeyCode.enter
          = some ({ App.new [⟨"beta".toList, "/tmp".toList, none, none⟩] none
                      with mode := Mode.Confirming },
              some (ExitAction.ApplyTheme t.name))) := by
  have hstep : (App.new [⟨"beta".toList, "/tmp".toList, none, none⟩] none).handle_key
      KeyCode.enter
      = some ({ App.new [⟨"beta".toList, "/tmp".toList, none, none⟩] none
                  with mode := Mode.Confirming }, none) := by decide
  have hr := Reachable.step (Reachable.base _ _) hstep
  exact ⟨hr, rfl, (C8_confirm_totality _ hr).2 rfl KeyCode.enter (Or.inl rfl)⟩

/-! ## Classification lemmas: how trimming interacts with the key line,
the header and carriage-return stripping -/

lemma dropWhile_append_keyRev (x : List Char) :
    (x ++ keyPre.reverse).dropWhile isRustWs
      = x.dropWhile isRustWs ++ keyPre.reverse := by
  induction x with
  | nil => decide
  | cons c x ih =>
    by_cases hc : isRustWs c
    · simp [List.dropWhile_cons, hc, ih]
    · simp [List.dropWhile_cons, hc]

lemma trimR_key (v : List Char) : trimR (keyPre ++ v) = keyPre ++ trimR v := by
  unfold trimR
  rw [List.reverse_append, dropWhile_append_keyRev, List.reverse_append,
    List.reverse_reverse]

lemma trimL_key (x : List Char) : trimL (keyPre ++ x) = keyPre ++ x := by
  show ((('C' : Char) :: "urrent=".toList) ++ x).dropWhile isRustWs = _
  rw [List.cons_append, List.dropWhile_cons, if_neg (by decide)]
  rfl

lemma rustTrim_key (v : List Char) : rustTrim (keyPre ++ v) = keyPre ++ trimR v := by
  rw [rustTrim, trimR_key, trimL_key]

lemma keyLine_head (x : List Char) : (keyPre ++ x).head? = some 'C' := rfl

lemma keyLine_not_header (v : List Char) :
    ¬(rustTrim (newKeyLine v)).head? = some '[' := by
  rw [newKeyLine, rustTrim_key, keyLine_head]
  decide

lemma isPre_self_append (p x : List Char) : p.isPrefixOf (p ++ x) = true := by
  induction p with
  | nil => simp [List.isPrefixOf]
  | cons c p ih => simp [List.isPrefixOf, ih]

lemma keyLine_isPre (v : List Char) :
    keyPre.isPrefixOf (rustTrim (newKeyLine v)) = true := by
  rw [newKeyLine, rustTrim_key]
  exact isPre_self_append _ _

lemma stripPre_keyLine (v : List Char) :
    stripPre keyPre (rustTrim (newKeyLine v)) = some (trimR v) := by
  rw [newKeyLine, rustTrim_key, stripPre, if_pos (isPre_self_append _ _),
    List.drop_left]

lemma dropWhile_idem (p : α → Bool) (l : List α) :
    (l.dropWhile p).dropWhile p = l.dropWhile p := by
  induction l with
  | nil => rfl
  | cons c l ih =>
    by_cases hc : p c
    · simpa [List.dropWhile_cons, hc] using ih
    · simp [List.dropWhile_cons, hc]

lemma trimR_idem (l : List Char) : trimR (trimR l) = trimR l := by
  unfold trimR
  rw [List.reverse_reverse, dropWhile_idem]

lemma rustTrim_trimR (l : List Char) : rustTrim (trimR l) = rustTrim l := by
  rw [rustTrim, rustTrim, trimR_idem]

lemma trimR_append_cr (l : List Char) : trimR (l ++ ['\r']) = trimR l := by
  unfold trimR
  rw [List.reverse_append]
  have hrev : (['\r'] : List Char).reverse ++ l.reverse = '\r' :: l.reverse := rfl
  rw [hrev, List.dropWhile_cons, if_pos (by decide)]

lemma stripCR_eq_self {l : List Char} (h : ¬l.getLast? = some '\r') :
    stripCR l = l := by
  rw [stripCR, if_neg h]

lemma rustTrim_stripCR (l : List Char) : rustTrim (stripCR l) = rustTrim l := by
  rw [stripCR]
  split
  case isTrue h =>
    have hne : l ≠ [] := by
      intro h0
      subst h0
      simp at h
    have hdecomp := List.dropLast_append_getLast hne
    have hlast : l.getLast hne = '\r' := by
      have := List.getLast?_eq_getLast l hne
      rw [h] at this
      exact (Option.some_injective _ this).symm
    conv_rhs => rw [← hdecomp, hlast]
    rw [rustTrim, rustTrim, trimR_append_cr]
  case isFalse => rfl

lemma hdTheme_facts :
    rustTrim hdTheme = hdTheme ∧ hdTheme.head? = some '[' ∧ stripCR hdTheme = hdTheme ∧
    rustTrim ([] : List Char) = [] ∧ stripCR ([] : List Char) = [] := by
  refine ⟨by decide, rfl, by decide, rfl, rfl⟩

/-! ## `rustLines` and `unlinesN`: splitting the rebuilt output -/

lemma mem_stripCR {c : Char} {l : List Char} (h : c ∈ stripCR l) : c ∈ l := by
  rw [stripCR] at h
  split at h
  · exact (List.dropLast_sublist l).subset h
  · exact h

lemma rustLinesAux_noLF : ∀ (s acc : List Char), '\n' ∉ acc →
    ∀ l ∈ rustLinesAux acc s, '\n' ∉ l := by
  intro s
  induction s with
  | nil =>
    intro acc hacc l hl
    rw [rustLinesAux] at hl
    simp at hl
    subst hl
    simpa using hacc
  | cons c rest ih =>
    intro acc hacc l hl
    rw [rustLinesAux] at hl
    by_cases hc : c = '\n'
    · rw [if_pos hc] at hl
      by_cases hr : rest = []
      · rw [if_pos hr] at hl
        simp at hl
        subst hl
        intro hmem
        exact hacc (by simpa using mem_stripCR hmem)
      · rw [if_neg hr] at hl
        rcases List.mem_cons.mp hl with h1 | h2
        · subst h1
          intro hmem
          exact hacc (by simpa using mem_stripCR hmem)
        · exact ih [] (by simp) l h2
    · rw [if_neg hc] at hl
      refine ih (c :: acc) ?_ l hl
      intro hmem
      rcases List.mem_cons.mp hmem with h1 | h2
      · exact hc h1.symm
      · exact hacc h2

lemma rustLines_noLF (s : List Char) : ∀ l ∈ rustLines s, '\n' ∉ l := by
  intro l hl
  rw [rustLines] at hl
  split at hl
  · simp at hl
  · exact rustLinesAux_noLF s [] (by simp) l hl

lemma rustLinesAux_line (l : List Char) (hl : '\n' ∉ l) :
    ∀ (acc s : List Char),
      rustLinesAux acc (l ++ '\n' :: s)
        = if s = [] then [stripCR (acc.reverse ++ l)]
          else stripCR (acc.reverse ++ l) :: rustLinesAux [] s := by
  induction l with
  | nil =>
    intro acc s
    rw [List.nil_append, rustLinesAux, if_pos rfl]
    simp
  | cons c l ih =>
    intro acc s
    have hc : ¬c = '\n' := by
      intro h
      exact hl (h ▸ List.mem_cons_self c l)
    have hl' : '\n' ∉ l := fun h => hl (List.mem_cons_of_mem c h)
    rw [List.cons_append, rustLinesAux, if_neg hc, ih hl' (c :: acc) s]
    simp [List.append_assoc]

lemma rustLines_unlinesN (ls : List (List Char)) (h : ∀ l ∈ ls, '\n' ∉ l) :
    rustLines (unlinesN ls) = ls.map stripCR := by
  induction ls with
  | nil => rfl
  | cons l ls ih =>
    have hl : '\n' ∉ l := h l (List.mem_cons_self l ls)
    have hrest : ∀ l' ∈ ls, '\n' ∉ l' := fun l' h' => h l' (List.mem_cons_of_mem l h')
    rw [unlinesN_cons, rustLines, if_neg (by simp), rustLinesAux_line l hl [] (unlinesN ls)]
    by_cases hnil : unlinesN ls = []
    · rw [if_pos hnil]
      have : ls = [] := (unlinesN_eq_nil_iff ls).mp hnil
      subst this
      simp
    · rw [if_neg hnil, List.reverse_nil, List.nil_append, List.map_cons]
      rw [← ih hrest, rustLines, if_neg hnil]

/-! ## Structural lemmas for the `apply_theme_to_content` loop -/

lemma apLoop_nil (θ : List Char) (st : ApSt) : apLoop θ st [] = ([], st) := rfl

lemma apLoop_cons_hd_inj (θ : List Char) (st : ApSt) (l : List Char)
    (rest : List (List Char)) (hh : (rustTrim l).head? = some '[')
    (hi : st.inTheme = true) (hk : st.foundKey = false) :
    apLoop θ st (l :: rest)
      = (newKeyLine θ :: l ::
          (apLoop θ ⟨rustTrim l == hdTheme,
            st.foundSection || (rustTrim l == hdTheme), true⟩ rest).1,
         (apLoop θ ⟨rustTrim l == hdTheme,
            st.foundSection || (rustTrim l == hdTheme), true⟩ rest).2) := by
  have hstep : apStep θ st l
      = ([newKeyLine θ, l],
         ⟨rustTrim l == hdTheme, st.foundSection || (rustTrim l == hdTheme), true⟩) := by
    simp [apStep, hh, hi, hk]
  rw [apLoop, hstep]
  rfl

lemma apLoop_cons_hd_noinj (θ : List Char) (st : ApSt) (l : List Char)
    (rest : List (List Char)) (hh : (rustTrim l).head? = some '[')
    (hni : (st.inTheme && !st.foundKey) = false) :
    apLoop θ st (l :: rest)
      = (l :: (apLoop θ ⟨rustTrim l == hdTheme,
            st.foundSection || (rustTrim l == hdTheme), st.foundKey⟩ rest).1,
         (apLoop θ ⟨rustTrim l == hdTheme,
            st.foundSection || (rustTrim l == hdTheme), st.foundKey⟩ rest).2) := by
  have hstep : apStep θ st l
      = ([l],
         ⟨rustTrim l == hdTheme, st.foundSection || (rustTrim l == hdTheme),
           st.foundKey⟩) := by
    simp [apStep, hh, hni]
  rw [apLoop, hstep]
  rfl

lemma apLoop_cons_key (θ : List Char) (st : ApSt) (l : List Char)
    (rest : List (List Char)) (hh : ¬(rustTrim l).head? = some '[')
    (hi : st.inTheme = true) (hp : keyPre.isPrefixOf (rustTrim l) = true) :
    apLoop θ st (l :: rest)
      = (newKeyLine θ :: (apLoop θ ⟨true, st.foundSection, true⟩ rest).1,
         (apLoop θ ⟨true, st.foundSection, true⟩ rest).2) := by
  have hstep : apStep θ st l = ([newKeyLine θ], ⟨true, st.foundSection, true⟩) := by
    simp [apStep, hh, hi, hp]
  rw [apLoop, hstep]
  rfl

lemma apLoop_cons_other (θ : List Char) (st : ApSt) (l : List Char)
    (rest : List (List Char)) (hh : ¬(rustTrim l).head? = some '[')
    (ho : (st.inTheme && keyPre.isPrefixOf (rustTrim l)) = false) :
    apLoop θ st (l :: rest)
      = (l :: (apLoop θ st rest).1, (apLoop θ st rest).2) := by
  have hstep : apStep θ st l = ([l], st) := by
    simp [apStep, hh, ho]
  rw [apLoop, hstep]
  rfl

lemma apLoop_append (θ : List Char) (xs ys : List (List Char)) : ∀ st : ApSt,
    apLoop θ st (xs ++ ys)
      = ((apLoop θ st xs).1 ++ (apLoop θ (apLoop θ st xs).2 ys).1,
         (apLoop θ (apLoop θ st xs).2 ys).2) := by
  induction xs with
  | nil => intro st; simp [apLoop_nil]
  | cons l xs ih =>
    intro st
    rw [List.cons_append, apLoop, apLoop, ih (apStep θ st l).2, List.append_assoc]

lemma apLoop_fk_mono (θ : List Char) (ls : List (List Char)) : ∀ st : ApSt,
    st.foundKey = true → (apLoop θ st ls).2.foundKey = true := by
  induction ls with
  | nil => intro st h; simpa [apLoop_nil] using h
  | cons l rest ih =>
    intro st h
    rw [apLoop]
    refine ih _ ?_
    rw [apStep]
    split
    · simp [h]
    · split
      · rfl
      · exact h

/-- The state invariants preserved by the loop: inside `[Theme]` implies the
section was seen; a found key implies the section was seen; and a seen
section implies the key was found or we are still inside the section. -/
def stInv (st : ApSt) : Prop :=
  (st.inTheme = true → st.foundSection = true) ∧
  (st.foundKey = true → st.foundSection = true) ∧
  (st.foundSection = true → st.foundKey = true ∨ st.inTheme = true)

lemma apStep_stInv (θ : List Char) (st : ApSt) (l : List Char) (h : stInv st) :
    stInv (apStep θ st l).2 := by
  obtain ⟨h1, h2, h3⟩ := h
  by_cases hh : (rustTrim l).head? = some '['
  · have hstep : (apStep θ st l).2
        = ⟨rustTrim l == hdTheme, st.foundSection || (rustTrim l == hdTheme),
           st.foundKey || (st.inTheme && !st.foundKey)⟩ := by
      simp [apStep, hh]
    rw [hstep]
    refine ⟨?_, ?_, ?_⟩
    · intro ht
      simp only [Bool.or_eq_true]
      exact Or.inr ht
    · intro hk
      simp only [Bool.or_eq_true] at hk ⊢
      rcases hk with hk | hinj
      · exact Or.inl (h2 hk)
      · simp only [Bool.and_eq_true] at hinj
        exact Or.inl (h1 hinj.1)
    · intro hs
      simp only [Bool.or_eq_true] at hs ⊢
      rcases hs with hs | ht
      · rcases h3 hs with hk | ht
        · exact Or.inl (Or.inl hk)
        · cases hfk : st.foundKey
          · exact Or.inl (Or.inr (by simp [ht, hfk]))
          · exact Or.inl (Or.inl rfl)
      · exact Or.inr ht
  · by_cases hkey : (st.inTheme && keyPre.isPrefixOf (rustTrim l)) = true
    · have hstep : (apStep θ st l).2 = ⟨st.inTheme, st.foundSection, true⟩ := by
        simp [apStep, hh, hkey]
      rw [hstep]
      simp only [Bool.and_eq_true] at hkey
      exact ⟨fun _ => h1 hkey.1, fun _ => h1 hkey.1, fun _ => Or.inl rfl⟩
    · have hstep : (apStep θ st l).2 = st := by
        simp [apStep, hh, hkey]
      rw [hstep]
      exact ⟨h1, h2, h3⟩

lemma apLoop_stInv (θ : List Char) (ls : List (List Char)) : ∀ st : ApSt,
    stInv st → stInv (apLoop θ st ls).2 := by
  induction ls with
  | nil => intro st h; simpa [apLoop_nil] using h
  | cons l rest ih =>
    intro st h
    rw [apLoop]
    exact ih _ (apStep_stInv θ st l h)

lemma mem_apLoop (θ : List Char) (ls : List (List Char)) : ∀ (st : ApSt)
    (l' : List Char), l' ∈ (apLoop θ st ls).1 → l' ∈ ls ∨ l' = newKeyLine θ := by
  induction ls with
  | nil => intro st l' h; simp [apLoop_nil] at h
  | cons l rest ih =>
    intro st l' h
    rw [apLoop] at h
    rcases List.mem_append.mp h with h1 | h2
    · rw [apStep] at h1
      split at h1
      · rcases List.mem_append.mp h1 with ha | hb
        · split at ha
          · simp at ha
            exact Or.inr ha
          · simp at ha
        · simp at hb
          exact Or.inl (by simp [hb])
      · split at h1
        · simp at h1
          exact Or.inr h1
        · simp at h1
          exact Or.inl (by simp [h1])
    · rcases ih _ l' h2 with ha | hb
      · exact Or.inl (List.mem_cons_of_mem l ha)
      · exact Or.inr hb

/-! ## Parse-loop case lemmas and composition -/

lemma parseLoop_cons_hd (b : Bool) (l : List Char) (rest : List (List Char))
    (hh : (rustTrim l).head? = some '[') :
    parseLoop b (l :: rest) = parseLoop (rustTrim l == hdTheme) rest := by
  simp [parseLoop, hh]

lemma parseLoop_cons_false (l : List Char) (rest : List (List Char))
    (hh : ¬(rustTrim l).head? = some '[') :
    parseLoop false (l :: rest) = parseLoop false rest := by
  simp [parseLoop, hh]

lemma parseLoop_cons_true_nokey (l : List Char) (rest : List (List Char))
    (hh : ¬(rustTrim l).head? = some '[')
    (hp : keyPre.isPrefixOf (rustTrim l) = false) :
    parseLoop true (l :: rest) = parseLoop true rest := by
  simp [parseLoop, hh, stripPre, hp]

lemma parseLoop_key (θ : List Char) (rest : List (List Char)) :
    parseLoop true (newKeyLine θ :: rest)
      = if rustTrim θ = [] then parseLoop true rest
        else (some (rustTrim θ), true) := by
  have h1 := keyLine_not_header θ
  have h2 := stripPre_keyLine θ
  simp only [parseLoop, h1, if_false, if_true, h2, rustTrim_trimR]

lemma parseLoop_append_some (xs : List (List Char)) : ∀ (ys : List (List Char))
    (b : Bool) (v : List Char), (parseLoop b xs).1 = some v →
    (parseLoop b (xs ++ ys)).1 = some v := by
  induction xs with
  | nil => intro ys b v h; simp [parseLoop] at h
  | cons l rest ih =>
    intro ys b v h
    rw [List.cons_append]
    by_cases hh : (rustTrim l).head? = some '['
    · rw [parseLoop_cons_hd _ _ _ hh] at h ⊢
      exact ih ys _ v h
    · cases b with
      | false =>
        rw [parseLoop_cons_false _ _ hh] at h ⊢
        exact ih ys _ v h
      | true =>
        rw [parseLoop] at h
        rw [parseLoop]
        simp only [hh, if_false] at h ⊢
        cases hsp : stripPre keyPre (rustTrim l) with
        | none =>
          simp only [hsp] at h ⊢
          exact ih ys _ v h
        | some val =>
          simp only [hsp] at h ⊢
          by_cases hv : rustTrim val = []
          · simp only [hv, if_pos rfl] at h ⊢
            simp only [if_true] at h ⊢
            exact ih ys _ v h
          · simp only [if_neg hv] at h ⊢
            exact h

lemma parseLoop_append_none (xs : List (List Char)) : ∀ (ys : List (List Char))
    (b b' : Bool), parseLoop b xs = (none, b') →
    parseLoop b (xs ++ ys) = parseLoop b' ys := by
  induction xs with
  | nil =>
    intro ys b b' h
    rw [parseLoop] at h
    cases h
    rfl
  | cons l rest ih =>
    intro ys b b' h
    rw [List.cons_append]
    by_cases hh : (rustTrim l).head? = some '['
    · rw [parseLoop_cons_hd _ _ _ hh] at h ⊢
      exact ih ys _ b' h
    · cases b with
      | false =>
        rw [parseLoop_cons_false _ _ hh] at h ⊢
        exact ih ys _ b' h
      | true =>
        rw [parseLoop] at h
        rw [parseLoop]
        simp only [hh, if_false] at h ⊢
        cases hsp : stripPre keyPre (rustTrim l) with
        | none =>
          simp only [hsp] at h ⊢
          exact ih ys _ b' h
        | some val =>
          simp only [hsp] at h ⊢
          by_cases hv : rustTrim val = []
          · simp only [hv, if_pos rfl] at h ⊢
            simp only [if_true] at h ⊢
            exact ih ys _ b' h
          · simp only [if_neg hv] at h ⊢
            cases h

lemma parseLoop_stripCR : ∀ (ls : List (List Char)) (b : Bool),
    parseLoop b (ls.map stripCR) = parseLoop b ls := by
  intro ls
  induction ls with
  | nil => intro b; rfl
  | cons l rest ih =>
    intro b
    rw [List.map_cons]
    show parseLoop b (stripCR l :: rest.map stripCR) = _
    rw [parseLoop, parseLoop, rustTrim_stripCR]
    by_cases hh : (rustTrim l).head? = some '['
    · simp only [hh, if_true, ih]
    · simp only [hh, if_false]
      cases b with
      | false => simp only [ih]
      | true =>
        cases hsp : stripPre keyPre (rustTrim l) with
        | none => simp only [hsp, ih]
        | some val =>
          simp only [hsp]
          by_cases hv : rustTrim val = []
          · simp [hv, ih]
          · simp [hv]

/-! ## The round-trip invariant (C1) -/

lemma apLoop_parse (θ : List Char) (hne : rustTrim θ ≠ []) :
    ∀ (ls : List (List Char)) (st : ApSt), st.foundKey = false →
      ((apLoop θ st ls).2.foundKey = true →
        (parseLoop st.inTheme (apLoop θ st ls).1).1 = some (rustTrim θ)) ∧
      ((apLoop θ st ls).2.foundKey = false →
        parseLoop st.inTheme (apLoop θ st ls).1 = (none, (apLoop θ st ls).2.inTheme)) := by
  intro ls
  induction ls with
  | nil =>
    intro st hfk
    rw [apLoop_nil]
    exact ⟨fun h => absurd h (by simp [hfk]), fun _ => rfl⟩
  | cons l rest ih =>
    intro st hfk
    by_cases hh : (rustTrim l).head? = some '['
    · cases hin : st.inTheme with
      | true =>
        rw [apLoop_cons_hd_inj θ st l rest hh hin hfk]
        have hfin := apLoop_fk_mono θ rest
          ⟨rustTrim l == hdTheme, st.foundSection || (rustTrim l == hdTheme), true⟩ rfl
        refine ⟨fun _ => ?_, fun hcontra => absurd hcontra (by simp [hfin])⟩
        rw [parseLoop_key θ _, if_neg hne]
      | false =>
        rw [apLoop_cons_hd_noinj θ st l rest hh (by simp [hin])]
        have hih := ih ⟨rustTrim l == hdTheme,
          st.foundSection || (rustTrim l == hdTheme), st.foundKey⟩ hfk
        rw [parseLoop_cons_hd _ _ _ hh]
        exact hih
    · cases hkp : (st.inTheme && keyPre.isPrefixOf (rustTrim l)) with
      | true =>
        rw [Bool.and_eq_true] at hkp
        rw [apLoop_cons_key θ st l rest hh hkp.1 hkp.2]
        have hfin := apLoop_fk_mono θ rest ⟨true, st.foundSection, true⟩ rfl
        refine ⟨fun _ => ?_, fun hcontra => absurd hcontra (by simp [hfin])⟩
        rw [hkp.1, parseLoop_key θ _, if_neg hne]
      | false =>
        rw [apLoop_cons_other θ st l rest hh hkp]
        have hih := ih st hfk
        cases hin : st.inTheme with
        | true =>
          have hp : keyPre.isPrefixOf (rustTrim l) = false := by
            cases hk2 : keyPre.isPrefixOf (rustTrim l)
            · rfl
            · rw [hin, hk2] at hkp
              cases hkp
          rw [parseLoop_cons_true_nokey _ _ hh hp]
          rw [hin] at hih
          exact hih
        | false =>
          rw [parseLoop_cons_false _ _ hh]
          rw [hin] at hih
          exact hih

lemma parse_applyLines (θ : List Char) (hne : rustTrim θ ≠ [])
    (ls : List (List Char)) :
    (parseLoop false (applyLines θ ls)).1 = some (rustTrim θ) := by
  have hinv := apLoop_stInv θ ls ⟨false, false, false⟩
    ⟨by simp, by simp, by simp⟩
  have hmain := apLoop_parse θ hne ls ⟨false, false, false⟩ rfl
  have hm1 : (apLoop θ ⟨false, false, false⟩ ls).2.foundKey = true →
      (parseLoop false (apLoop θ ⟨false, false, false⟩ ls).1).1
        = some (rustTrim θ) := hmain.1
  have hm2 : (apLoop θ ⟨false, false, false⟩ ls).2.foundKey = false →
      parseLoop false (apLoop θ ⟨false, false, false⟩ ls).1
        = (none, (apLoop θ ⟨false, false, false⟩ ls).2.inTheme) := hmain.2
  simp only [applyLines]
  cases hfk : (apLoop θ ⟨false, false, false⟩ ls).2.foundKey with
  | true =>
    have hfs := hinv.2.1 hfk
    rw [hfs]
    simp only [Bool.not_true, Bool.and_false, Bool.true_or, Bool.or_false,
      Bool.false_or, if_false]
    exact hm1 hfk
  | false =>
    have hp := hm2 hfk
    cases hin : (apLoop θ ⟨false, false, false⟩ ls).2.inTheme with
    | true =>
      rw [hin] at hp
      have hfs := hinv.1 hin
      rw [hfs]
      simp only [Bool.not_false, Bool.not_true, Bool.true_and, Bool.false_and,
        Bool.and_true, Bool.and_false, Bool.or_true, Bool.true_or,
        Bool.or_false, Bool.false_or, Bool.or_self, if_true, if_false]
      rw [if_neg (show ¬(false = true) by decide)]
      rw [parseLoop_append_none _ [newKeyLine θ] false true hp,
        parseLoop_key θ [], if_neg hne]
    | false =>
      rw [hin] at hp
      simp only [Bool.not_false, Bool.not_true, Bool.true_and, Bool.false_and,
        Bool.and_true, Bool.and_false, Bool.or_true, Bool.true_or,
        Bool.or_false, Bool.false_or, Bool.or_self, if_true, if_false]
      rw [if_neg (show ¬(false = true) by decide)]
      rw [parseLoop_append_none _ [[], hdTheme, newKeyLine θ] false false hp]
      rw [parseLoop_cons_false _ _ (by decide),
        parseLoop_cons_hd _ _ _ (by decide)]
      have hbeq : (rustTrim hdTheme == hdTheme) = true := by decide
      rw [hbeq, parseLoop_key θ [], if_neg hne]

lemma mem_applyLines (θ : List Char) (ls : List (List Char)) (l' : List Char)
    (h : l' ∈ applyLines θ ls) :
    l' ∈ ls ∨ l' = newKeyLine θ ∨ l' = [] ∨ l' = hdTheme := by
  simp only [applyLines] at h
  have core : l' ∈ (apLoop θ ⟨false, false, false⟩ ls).1 →
      l' ∈ ls ∨ l' = newKeyLine θ ∨ l' = [] ∨ l' = hdTheme := by
    intro hm
    rcases mem_apLoop θ ls _ l' hm with h1 | h2
    · exact Or.inl h1
    · exact Or.inr (Or.inl h2)
  split at h
  · rcases List.mem_append.mp h with h1 | h2
    · split at h1
      · rcases List.mem_append.mp h1 with ha | hb
        · exact core ha
        · simp at hb
          exact Or.inr (Or.inl hb)
      · exact core h1
    · simp at h2
      rcases h2 with h2 | h2 | h2
      · exact Or.inr (Or.inr (Or.inl h2))
      · exact Or.inr (Or.inr (Or.inr h2))
      · exact Or.inr (Or.inl h2)
  · split at h
    · rcases List.mem_append.mp h with h1 | h2
      · exact core h1
      · simp at h2
        exact Or.inr (Or.inl h2)
    · exact core h

lemma applyLines_noLF (θ : List Char) (h3 : '\n' ∉ θ) (ls : List (List Char))
    (hls : ∀ l ∈ ls, '\n' ∉ l) :
    ∀ l ∈ applyLines θ ls, '\n' ∉ l := by
  intro l hl
  rcases mem_applyLines θ ls l hl with h | h | h | h
  · exact hls l h
  · subst h
    rw [newKeyLine]
    intro hmem
    rcases List.mem_append.mp hmem with ha | hb
    · revert ha
      decide
    · exact h3 hb
  · subst h
    simp
  · subst h
    decide

/-- C1 (amended): the round-trip `parse ∘ patch = id` holds for every document
and every value `V` that is non-empty, already trimmed, and free of newline
characters; it fails for values outside that shape (see the counterexample). -/
theorem C1_roundtrip (doc V : List Char) (h1 : V ≠ []) (h2 : rustTrim V = V)
    (h3 : '\n' ∉ V) :
    parse_current_theme (apply_theme_to_content doc V) = some V := by
  have hne : rustTrim V ≠ [] := by rw [h2]; exact h1
  rw [apply_theme_to_content, parse_current_theme,
    rustLines_unlinesN _ (applyLines_noLF V h3 (rustLines doc) (rustLines_noLF doc)),
    parseLoop_stripCR, parse_applyLines V hne, h2]

/-- C1 witness: the round-trip at the concrete document
`"[General]\nFoo=bar\n"` and value `"maya"`. -/
theorem C1_roundtrip_witness :
    "maya".toList ≠ [] ∧ rustTrim "maya".toList = "maya".toList ∧
    '\n' ∉ "maya".toList ∧
    parse_current_theme
      (apply_theme_to_content "[General]\nFoo=bar\n".toList "maya".toList)
      = some "maya".toList :=
  ⟨by decide, by decide, by decide,
    C1_roundtrip "[General]\nFoo=bar\n".toList "maya".toList
      (by decide) (by decide) (by decide)⟩

/-- C1 counterexample: with the empty value the claim demands
`some ""`, but extraction of the patched empty document yields `none`
(the code treats an empty trimmed value as absent). -/
theorem C1_counterexample :
    parse_current_theme (apply_theme_to_content [] []) = none := by
  decide

/-! ## Idempotence (C2): the second pass reproduces the first pass's output -/

lemma stripCR_keyLine_trim (θ : List Char) :
    rustTrim (stripCR (newKeyLine θ)) = keyPre ++ trimR θ := by
  rw [rustTrim_stripCR, newKeyLine, rustTrim_key]

lemma stripCR_keyLine_not_header (θ : List Char) :
    ¬(rustTrim (stripCR (newKeyLine θ))).head? = some '[' := by
  rw [stripCR_keyLine_trim, keyLine_head]
  decide

lemma stripCR_keyLine_isPre (θ : List Char) :
    keyPre.isPrefixOf (rustTrim (stripCR (newKeyLine θ))) = true := by
  rw [stripCR_keyLine_trim]
  exact isPre_self_append _ _

lemma apLoop_self (θ : List Char) : ∀ (ls : List (List Char)) (st : ApSt),
    (∀ l ∈ ls, stripCR l = l) →
    apLoop θ st ((apLoop θ st ls).1.map stripCR) = apLoop θ st ls := by
  intro ls
  induction ls with
  | nil => intro st _; rfl
  | cons l rest ih =>
    intro st hCR
    have hCRl : stripCR l = l := hCR l (List.mem_cons_self l rest)
    have hCRrest : ∀ l' ∈ rest, stripCR l' = l' :=
      fun l' h' => hCR l' (List.mem_cons_of_mem l h')
    by_cases hh : (rustTrim l).head? = some '['
    · cases hfk : st.foundKey with
      | false =>
        cases hin : st.inTheme with
        | true =>
          rw [apLoop_cons_hd_inj θ st l rest hh hin hfk]
          rw [List.map_cons, List.map_cons, hCRl]
          rw [apLoop_cons_key θ st (stripCR (newKeyLine θ)) _
            (stripCR_keyLine_not_header θ) hin (stripCR_keyLine_isPre θ)]
          rw [apLoop_cons_hd_noinj θ ⟨true, st.foundSection, true⟩ l _ hh (by simp)]
          rw [ih _ hCRrest]
        | false =>
          rw [apLoop_cons_hd_noinj θ st l rest hh (by simp [hin])]
          rw [List.map_cons, hCRl]
          rw [apLoop_cons_hd_noinj θ st l _ hh (by simp [hin])]
          rw [ih _ hCRrest]
      | true =>
        rw [apLoop_cons_hd_noinj θ st l rest hh (by simp [hfk])]
        rw [List.map_cons, hCRl]
        rw [apLoop_cons_hd_noinj θ st l _ hh (by simp [hfk])]
        rw [ih _ hCRrest]
    · cases hkp : (st.inTheme && keyPre.isPrefixOf (rustTrim l)) with
      | true =>
        have hkp' : st.inTheme = true ∧ keyPre.isPrefixOf (rustTrim l) = true := by
          rw [Bool.and_eq_true] at hkp
          exact hkp
        rw [apLoop_cons_key θ st l rest hh hkp'.1 hkp'.2]
        rw [List.map_cons]
        rw [apLoop_cons_key θ st (stripCR (newKeyLine θ)) _
          (stripCR_keyLine_not_header θ) hkp'.1 (stripCR_keyLine_isPre θ)]
        rw [ih _ hCRrest]
      | false =>
        rw [apLoop_cons_other θ st l rest hh hkp]
        rw [List.map_cons, hCRl]
        rw [apLoop_cons_other θ st l _ hh hkp]
        rw [ih _ hCRrest]

lemma applyLines_self (θ : List Char) (ls : List (List Char))
    (hCR : ∀ l ∈ ls, stripCR l = l) :
    applyLines θ ((applyLines θ ls).map stripCR) = applyLines θ ls := by
  have hinv := apLoop_stInv θ ls ⟨false, false, false⟩ ⟨by simp, by simp, by simp⟩
  have hself := apLoop_self θ ls ⟨false, false, false⟩ hCR
  cases hfk : (apLoop θ ⟨false, false, false⟩ ls).2.foundKey with
  | true =>
    have hfs := hinv.2.1 hfk
    have hR : applyLines θ ls = (apLoop θ ⟨false, false, false⟩ ls).1 := by
      simp only [applyLines]
      rw [hfk, hfs]
      simp
    rw [hR]
    simp only [applyLines]
    rw [hself, hfk, hfs]
    simp
  | false =>
    cases hin : (apLoop θ ⟨false, false, false⟩ ls).2.inTheme with
    | true =>
      have hfs := hinv.1 hin
      have hR : applyLines θ ls
          = (apLoop θ ⟨false, false, false⟩ ls).1 ++ [newKeyLine θ] := by
        simp only [applyLines]
        rw [hfk, hfs, hin]
        simp
      have hmapB : ([newKeyLine θ] : List (List Char)).map stripCR
          = [stripCR (newKeyLine θ)] := rfl
      have htailB : apLoop θ (apLoop θ ⟨false, false, false⟩ ls).2
          [stripCR (newKeyLine θ)]
          = ([newKeyLine θ],
             ⟨true, (apLoop θ ⟨false, false, false⟩ ls).2.foundSection, true⟩) := by
        rw [apLoop_cons_key θ _ (stripCR (newKeyLine θ)) []
          (stripCR_keyLine_not_header θ) hin (stripCR_keyLine_isPre θ), apLoop_nil]
      rw [hR]
      simp only [applyLines]
      rw [List.map_append, hmapB, apLoop_append θ _ _ _, hself, htailB, hfs]
      simp
    | false =>
      have hfs : (apLoop θ ⟨false, false, false⟩ ls).2.foundSection = false := by
        cases hfsv : (apLoop θ ⟨false, false, false⟩ ls).2.foundSection
        · rfl
        · rcases hinv.2.2 hfsv with hcon | hcon
          · rw [hfk] at hcon
            cases hcon
          · rw [hin] at hcon
            cases hcon
      have hR : applyLines θ ls
          = (apLoop θ ⟨false, false, false⟩ ls).1 ++ [[], hdTheme, newKeyLine θ] := by
        simp only [applyLines]
        rw [hfk, hin]
        simp
      have hmapC : ([[], hdTheme, newKeyLine θ] : List (List Char)).map stripCR
          = [[], hdTheme, stripCR (newKeyLine θ)] := by
        simp only [List.map_cons, List.map_nil]
        rw [show stripCR ([] : List Char) = [] from rfl,
          show stripCR hdTheme = hdTheme from by decide]
      have htailC : apLoop θ (apLoop θ ⟨false, false, false⟩ ls).2
          [[], hdTheme, stripCR (newKeyLine θ)]
          = ([[], hdTheme, newKeyLine θ], ⟨true, true, true⟩) := by
        rw [apLoop_cons_other θ _ [] _ (by decide) (by rw [hin]; rfl)]
        rw [apLoop_cons_hd_noinj θ _ hdTheme _ (by decide) (by rw [hin]; rfl)]
        rw [show (rustTrim hdTheme == hdTheme) = true from by decide, hfk,
          Bool.or_true]
        rw [apLoop_cons_key θ ⟨true, true, false⟩ (stripCR (newKeyLine θ)) []
          (stripCR_keyLine_not_header θ) rfl (stripCR_keyLine_isPre θ), apLoop_nil]
      rw [hR]
      simp only [applyLines]
      rw [List.map_append, hmapC, apLoop_append θ _ _ _, hself, htailC]
      simp

/-- C2 (amended): the patch is idempotent whenever the value contains no
newline character and no line of the document ends with a carriage return:
`patch(patch(doc, V), V) = patch(doc, V)`.  It fails for documents with
`\r`-terminated lines, which the second pass normalizes (see the
counterexample). -/
theorem C2_idempotence (doc V : List Char) (h3 : '\n' ∉ V)
    (hcr : ∀ l ∈ rustLines doc, ¬l.getLast? = some '\r') :
    apply_theme_to_content (apply_theme_to_content doc V) V
      = apply_theme_to_content doc V := by
  have hCR : ∀ l ∈ rustLines doc, stripCR l = l :=
    fun l hl => stripCR_eq_self (hcr l hl)
  rw [apply_theme_to_content, apply_theme_to_content,
    rustLines_unlinesN _ (applyLines_noLF V h3 _ (rustLines_noLF doc)),
    applyLines_self V _ hCR]

/-- C2 witness: idempotence at the concrete document
`"[Theme]\nCurrent=old\n"` and value `"new"`. -/
theorem C2_idempotence_witness :
    '\n' ∉ "new".toList ∧
    (∀ l ∈ rustLines "[Theme]\nCurrent=old\n".toList, ¬l.getLast? = some '\r') ∧
    apply_theme_to_content
        (apply_theme_to_content "[Theme]\nCurrent=old\n".toList "new".toList)
        "new".toList
      = apply_theme_to_content "[Theme]\nCurrent=old\n".toList "new".toList :=
  ⟨by decide, by decide,
    C2_idempotence "[Theme]\nCurrent=old\n".toList "new".toList
      (by decide) (by decide)⟩

/-- C2 counterexample: the document `"x\r"` (a line with a stray trailing
carriage return) is not a fixed point of the second application — the first
pass emits `x\r\n`, whose `\r\n` the second pass's line iterator strips. -/
theorem C2_counterexample :
    apply_theme_to_content
        (apply_theme_to_content "x\r".toList "v".toList) "v".toList
      ≠ apply_theme_to_content "x\r".toList "v".toList := by
  decide

/-! ## Key-line counting (C4) and duplicate rewriting (C5)

Measurement scans over a line list, using the same section-tracking
discipline as the code: `countRun` counts the `Current=` lines inside
recognized `[Theme]` sections, `flagRun` is the final value of the
in-section flag, and `allKeyRun` checks that every such line carries
(up to trimming) exactly the key line for the given value. -/

/-- Number of lines inside recognized `[Theme]` sections whose trimmed text
starts with `Current=`. -/
def countRun : Bool → List (List Char) → Nat
  | _, [] => 0
  | b, l :: rest =>
    let t := rustTrim l
    if t.head? = some '[' then countRun (t == hdTheme) rest
    else if b && keyPre.isPrefixOf t then 1 + countRun b rest
    else countRun b rest

/-- `countRun` over a document's lines. -/
def countCurrentInTheme (content : List Char) : Nat :=
  countRun false (rustLines content)

/-- Final value of the in-section flag after scanning `ls`. -/
def flagRun : Bool → List (List Char) → Bool
  | b, [] => b
  | b, l :: rest =>
    let t := rustTrim l
    flagRun (if t.head? = some '[' then t == hdTheme else b) rest

/-- Whether every `Current=` line inside a `[Theme]` section equals, up to
trimming, the key line `Current=<v>`. -/
def allKeyRun (v : List Char) : Bool → List (List Char) → Bool
  | _, [] => true
  | b, l :: rest =>
    let t := rustTrim l
    if t.head? = some '[' then allKeyRun v (t == hdTheme) rest
    else if b && keyPre.isPrefixOf t then
      decide (t = rustTrim (newKeyLine v)) && allKeyRun v b rest
    else allKeyRun v b rest

/-- `allKeyRun` over a document's lines. -/
def allCurrentEq (content v : List Char) : Bool :=
  allKeyRun v false (rustLines content)

/-- Number of key lines the patch loop injects while scanning `ls` from
state `st` (mirrors `apLoop`'s state evolution; the state never depends on
the theme value). -/
def injN : ApSt → List (List Char) → Nat
  | _, [] => 0
  | st, l :: rest =>
    let t := rustTrim l
    if t.head? = some '[' then
      (if st.inTheme && !st.foundKey then 1 else 0)
        + injN ⟨t == hdTheme, st.foundSection || (t == hdTheme),
            st.foundKey || (st.inTheme && !st.foundKey)⟩ rest
    else if st.inTheme && keyPre.isPrefixOf t then
      injN ⟨st.inTheme, st.foundSection, true⟩ rest
    else injN st rest

/-! ### Scan composition and `stripCR`-invariance -/

lemma flagRun_append (xs : List (List Char)) : ∀ (ys : List (List Char)) (b : Bool),
    flagRun b (xs ++ ys) = flagRun (flagRun b xs) ys := by
  induction xs with
  | nil => intro ys b; rfl
  | cons l rest ih =>
    intro ys b
    rw [List.cons_append, flagRun, flagRun, ih]

lemma countRun_append (xs : List (List Char)) : ∀ (ys : List (List Char)) (b : Bool),
    countRun b (xs ++ ys) = countRun b xs + countRun (flagRun b xs) ys := by
  induction xs with
  | nil => intro ys b; simp [countRun, flagRun]
  | cons l rest ih =>
    intro ys b
    by_cases hh : (rustTrim l).head? = some '['
    · simp [countRun, flagRun, hh, ih]
    · by_cases hk : (b && keyPre.isPrefixOf (rustTrim l)) = true
      · simp [countRun, flagRun, hh, hk, ih, Nat.add_assoc]
      · simp [countRun, flagRun, hh, hk, ih]

lemma allKeyRun_append (v : List Char) (xs : List (List Char)) :
    ∀ (ys : List (List Char)) (b : Bool),
    allKeyRun v b (xs ++ ys)
      = (allKeyRun v b xs && allKeyRun v (flagRun b xs) ys) := by
  induction xs with
  | nil => intro ys b; simp [allKeyRun, flagRun]
  | cons l rest ih =>
    intro ys b
    by_cases hh : (rustTrim l).head? = some '['
    · simp [allKeyRun, flagRun, hh, ih]
    · by_cases hk : (b && keyPre.isPrefixOf (rustTrim l)) = true
      · simp [allKeyRun, flagRun, hh, hk, ih, Bool.and_assoc]
      · simp [allKeyRun, flagRun, hh, hk, ih]

lemma countRun_stripCR : ∀ (ls : List (List Char)) (b : Bool),
    countRun b (ls.map stripCR) = countRun b ls := by
  intro ls
  induction ls with
  | nil => intro b; rfl
  | cons l rest ih =>
    intro b
    by_cases hh : (rustTrim l).head? = some '['
    · simp [countRun, rustTrim_stripCR, hh, ih]
    · by_cases hk : (b && keyPre.isPrefixOf (rustTrim l)) = true
      · simp [countRun, rustTrim_stripCR, hh, hk, ih]
      · simp [countRun, rustTrim_stripCR, hh, hk, ih]

lemma allKeyRun_stripCR (v : List Char) : ∀ (ls : List (List Char)) (b : Bool),
    allKeyRun v b (ls.map stripCR) = allKeyRun v b ls := by
  intro ls
  induction ls with
  | nil => intro b; rfl
  | cons l rest ih =>
    intro b
    by_cases hh : (rustTrim l).head? = some '['
    · simp [allKeyRun, rustTrim_stripCR, hh, ih]
    · by_cases hk : (b && keyPre.isPrefixOf (rustTrim l)) = true
      · simp [allKeyRun, rustTrim_stripCR, hh, hk, ih]
      · simp [allKeyRun, rustTrim_stripCR, hh, hk, ih]

/-! ### Scan step lemmas -/

lemma flagRun_cons_hd (b : Bool) (l : List Char) (rest : List (List Char))
    (hh : (rustTrim l).head? = some '[') :
    flagRun b (l :: rest) = flagRun (rustTrim l == hdTheme) rest := by
  simp [flagRun, hh]

lemma flagRun_cons_nothd (b : Bool) (l : List Char) (rest : List (List Char))
    (hh : ¬(rustTrim l).head? = some '[') :
    flagRun b (l :: rest) = flagRun b rest := by
  simp [flagRun, hh]

lemma countRun_cons_hd (b : Bool) (l : List Char) (rest : List (List Char))
    (hh : (rustTrim l).head? = some '[') :
    countRun b (l :: rest) = countRun (rustTrim l == hdTheme) rest := by
  simp [countRun, hh]

lemma countRun_cons_key (b : Bool) (l : List Char) (rest : List (List Char))
    (hh : ¬(rustTrim l).head? = some '[')
    (hk : (b && keyPre.isPrefixOf (rustTrim l)) = true) :
    countRun b (l :: rest) = 1 + countRun b rest := by
  simp [countRun, hh, hk]

lemma countRun_cons_other (b : Bool) (l : List Char) (rest : List (List Char))
    (hh : ¬(rustTrim l).head? = some '[')
    (hk : (b && keyPre.isPrefixOf (rustTrim l)) = false) :
    countRun b (l :: rest) = countRun b rest := by
  simp [countRun, hh, hk]

lemma countRun_keyline (θ : List Char) (rest : List (List Char)) :
    countRun true (newKeyLine θ :: rest) = 1 + countRun true rest :=
  countRun_cons_key true _ rest (keyLine_not_header θ) (by simp [keyLine_isPre θ])

lemma injN_cons_hd (st : ApSt) (l : List Char) (rest : List (List Char))
    (hh : (rustTrim l).head? = some '[') :
    injN st (l :: rest)
      = (if st.inTheme && !st.foundKey then 1 else 0)
        + injN ⟨rustTrim l == hdTheme, st.foundSection || (rustTrim l == hdTheme),
            st.foundKey || (st.inTheme && !st.foundKey)⟩ rest := by
  simp [injN, hh]

lemma injN_cons_key (st : ApSt) (l : List Char) (rest : List (List Char))
    (hh : ¬(rustTrim l).head? = some '[')
    (hk : (st.inTheme && keyPre.isPrefixOf (rustTrim l)) = true) :
    injN st (l :: rest) = injN ⟨st.inTheme, st.foundSection, true⟩ rest := by
  simp [injN, hh, hk]

lemma injN_cons_other (st : ApSt) (l : List Char) (rest : List (List Char))
    (hh : ¬(rustTrim l).head? = some '[')
    (hk : (st.inTheme && keyPre.isPrefixOf (rustTrim l)) = false) :
    injN st (l :: rest) = injN st rest := by
  simp [injN, hh, hk]

lemma allKeyRun_cons_hd (v : List Char) (b : Bool) (l : List Char)
    (rest : List (List Char)) (hh : (rustTrim l).head? = some '[') :
    allKeyRun v b (l :: rest) = allKeyRun v (rustTrim l == hdTheme) rest := by
  simp [allKeyRun, hh]

lemma allKeyRun_cons_other (v : List Char) (b : Bool) (l : List Char)
    (rest : List (List Char)) (hh : ¬(rustTrim l).head? = some '[')
    (hk : (b && keyPre.isPrefixOf (rustTrim l)) = false) :
    allKeyRun v b (l :: rest) = allKeyRun v b rest := by
  simp [allKeyRun, hh, hk]

lemma allKeyRun_keyline (v : List Char) (rest : List (List Char)) :
    allKeyRun v true (newKeyLine v :: rest) = allKeyRun v true rest := by
  have hh := keyLine_not_header v
  have hk : (true && keyPre.isPrefixOf (rustTrim (newKeyLine v))) = true := by
    simp [keyLine_isPre v]
  simp [allKeyRun, hh, hk]

/-! ### Relating the scans to the patch loop -/

lemma flag_sync (θ : List Char) : ∀ (ls : List (List Char)) (st : ApSt),
    flagRun st.inTheme (apLoop θ st ls).1 = (apLoop θ st ls).2.inTheme := by
  intro ls
  induction ls with
  | nil => intro st; rfl
  | cons l rest ih =>
    intro st
    by_cases hh : (rustTrim l).head? = some '['
    · cases hfk : st.foundKey with
      | false =>
        cases hin : st.inTheme with
        | true =>
          rw [apLoop_cons_hd_inj θ st l rest hh hin hfk]
          show flagRun true (newKeyLine θ :: l ::
              (apLoop θ ⟨rustTrim l == hdTheme,
                st.foundSection || (rustTrim l == hdTheme), true⟩ rest).1)
            = (apLoop θ ⟨rustTrim l == hdTheme,
                st.foundSection || (rustTrim l == hdTheme), true⟩ rest).2.inTheme
          rw [flagRun_cons_nothd _ _ _ (keyLine_not_header θ),
            flagRun_cons_hd _ _ _ hh]
          exact ih ⟨rustTrim l == hdTheme,
            st.foundSection || (rustTrim l == hdTheme), true⟩
        | false =>
          rw [apLoop_cons_hd_noinj θ st l rest hh (by simp [hin])]
          show flagRun false (l ::
              (apLoop θ ⟨rustTrim l == hdTheme,
                st.foundSection || (rustTrim l == hdTheme), st.foundKey⟩ rest).1)
            = (apLoop θ ⟨rustTrim l == hdTheme,
                st.foundSection || (rustTrim l == hdTheme), st.foundKey⟩ rest).2.inTheme
          rw [flagRun_cons_hd _ _ _ hh]
          exact ih ⟨rustTrim l == hdTheme,
            st.foundSection || (rustTrim l == hdTheme), st.foundKey⟩
      | true =>
        rw [apLoop_cons_hd_noinj θ st l rest hh (by simp [hfk])]
        show flagRun st.inTheme (l ::
            (apLoop θ ⟨rustTrim l == hdTheme,
              st.foundSection || (rustTrim l == hdTheme), st.foundKey⟩ rest).1)
          = (apLoop θ ⟨rustTrim l == hdTheme,
              st.foundSection || (rustTrim l == hdTheme), st.foundKey⟩ rest).2.inTheme
        rw [flagRun_cons_hd _ _ _ hh]
        exact ih ⟨rustTrim l == hdTheme,
          st.foundSection || (rustTrim l == hdTheme), st.foundKey⟩
    · cases hkp : (st.inTheme && keyPre.isPrefixOf (rustTrim l)) with
      | true =>
        have hkp' : st.inTheme = true ∧ keyPre.isPrefixOf (rustTrim l) = true := by
          rw [Bool.and_eq_true] at hkp
          exact hkp
        rw [apLoop_cons_key θ st l rest hh hkp'.1 hkp'.2, hkp'.1]
        show flagRun true (newKeyLine θ ::
            (apLoop θ ⟨true, st.foundSection, true⟩ rest).1)
          = (apLoop θ ⟨true, st.foundSection, true⟩ rest).2.inTheme
        rw [flagRun_cons_nothd _ _ _ (keyLine_not_header θ)]
        exact ih ⟨true, st.foundSection, true⟩
      | false =>
        rw [apLoop_cons_other θ st l rest hh hkp]
        show flagRun st.inTheme (l :: (apLoop θ st rest).1)
          = (apLoop θ st rest).2.inTheme
        rw [flagRun_cons_nothd _ _ _ hh]
        exact ih st

lemma count_char (θ : List Char) : ∀ (ls : List (List Char)) (st : ApSt),
    countRun st.inTheme (apLoop θ st ls).1 = countRun st.inTheme ls + injN st ls := by
  intro ls
  induction ls with
  | nil => intro st; rfl
  | cons l rest ih =>
    intro st
    by_cases hh : (rustTrim l).head? = some '['
    · cases hfk : st.foundKey with
      | false =>
        cases hin : st.inTheme with
        | true =>
          rw [apLoop_cons_hd_inj θ st l rest hh hin hfk]
          show countRun true (newKeyLine θ :: l ::
              (apLoop θ ⟨rustTrim l == hdTheme,
                st.foundSection || (rustTrim l == hdTheme), true⟩ rest).1)
            = countRun true (l :: rest) + injN st (l :: rest)
          have hih : countRun (rustTrim l == hdTheme)
              (apLoop θ ⟨rustTrim l == hdTheme,
                st.foundSection || (rustTrim l == hdTheme), true⟩ rest).1
              = countRun (rustTrim l == hdTheme) rest
                + injN ⟨rustTrim l == hdTheme,
                    st.foundSection || (rustTrim l == hdTheme), true⟩ rest :=
            ih ⟨rustTrim l == hdTheme,
              st.foundSection || (rustTrim l == hdTheme), true⟩
          rw [countRun_keyline θ, countRun_cons_hd _ _ _ hh, hih,
            countRun_cons_hd _ _ _ hh, injN_cons_hd st l rest hh, hin, hfk]
          simp
          omega
        | false =>
          rw [apLoop_cons_hd_noinj θ st l rest hh (by simp [hin])]
          show countRun false (l ::
              (apLoop θ ⟨rustTrim l == hdTheme,
                st.foundSection || (rustTrim l == hdTheme), st.foundKey⟩ rest).1)
            = countRun false (l :: rest) + injN st (l :: rest)
          have hih : countRun (rustTrim l == hdTheme)
              (apLoop θ ⟨rustTrim l == hdTheme,
                st.foundSection || (rustTrim l == hdTheme), st.foundKey⟩ rest).1
              = countRun (rustTrim l == hdTheme) rest
                + injN ⟨rustTrim l == hdTheme,
                    st.foundSection || (rustTrim l == hdTheme), st.foundKey⟩ rest :=
            ih ⟨rustTrim l == hdTheme,
              st.foundSection || (rustTrim l == hdTheme), st.foundKey⟩
          rw [countRun_cons_hd _ _ _ hh, hih, countRun_cons_hd _ _ _ hh,
            injN_cons_hd st l rest hh, hin]
          simp
      | true =>
        rw [apLoop_cons_hd_noinj θ st l rest hh (by simp [hfk])]
        show countRun st.inTheme (l ::
            (apLoop θ ⟨rustTrim l == hdTheme,
              st.foundSection || (rustTrim l == hdTheme), st.foundKey⟩ rest).1)
          = countRun st.inTheme (l :: rest) + injN st (l :: rest)
        have hih : countRun (rustTrim l == hdTheme)
            (apLoop θ ⟨rustTrim l == hdTheme,
              st.foundSection || (rustTrim l == hdTheme), st.foundKey⟩ rest).1
            = countRun (rustTrim l == hdTheme) rest
              + injN ⟨rustTrim l == hdTheme,
                  st.foundSection || (rustTrim l == hdTheme), st.foundKey⟩ rest :=
          ih ⟨rustTrim l == hdTheme,
            st.foundSection || (rustTrim l == hdTheme), st.foundKey⟩
        rw [countRun_cons_hd _ _ _ hh, hih, countRun_cons_hd _ _ _ hh,
          injN_cons_hd st l rest hh, hfk]
        simp
    · cases hkp : (st.inTheme && keyPre.isPrefixOf (rustTrim l)) with
      | true =>
        have hkp' : st.inTheme = true ∧ keyPre.isPrefixOf (rustTrim l) = true := by
          rw [Bool.and_eq_true] at hkp
          exact hkp
        rw [apLoop_cons_key θ st l rest hh hkp'.1 hkp'.2, hkp'.1]
        show countRun true (newKeyLine θ ::
            (apLoop θ ⟨true, st.foundSection, true⟩ rest).1)
          = countRun true (l :: rest) + injN st (l :: rest)
        have hih : countRun true (apLoop θ ⟨true, st.foundSection, true⟩ rest).1
            = countRun true rest + injN ⟨true, st.foundSection, true⟩ rest :=
          ih ⟨true, st.foundSection, true⟩
        rw [countRun_keyline θ, hih,
          countRun_cons_key _ _ _ hh (by simp [hkp'.2]),
          injN_cons_key st l rest hh hkp, hkp'.1]
        omega
      | false =>
        rw [apLoop_cons_other θ st l rest hh hkp]
        show countRun st.inTheme (l :: (apLoop θ st rest).1)
          = countRun st.inTheme (l :: rest) + injN st (l :: rest)
        rw [countRun_cons_other _ _ _ hh hkp, countRun_cons_other _ _ _ hh hkp,
          injN_cons_other st l rest hh hkp]
        exact ih st

lemma injN_fk : ∀ (ls : List (List Char)) (st : ApSt),
    st.foundKey = true → injN st ls = 0 := by
  intro ls
  induction ls with
  | nil => intro st _; rfl
  | cons l rest ih =>
    intro st hfk
    by_cases hh : (rustTrim l).head? = some '['
    · rw [injN_cons_hd st l rest hh, hfk]
      simp only [Bool.not_true, Bool.and_false,
        if_neg (by decide : ¬(false = true)), Nat.zero_add, Bool.or_false]
      exact ih _ (by simp [hfk])
    · by_cases hkp : (st.inTheme && keyPre.isPrefixOf (rustTrim l)) = true
      · rw [injN_cons_key st l rest hh hkp]
        exact ih _ rfl
      · rw [injN_cons_other st l rest hh (Bool.eq_false_iff.mpr hkp)]
        exact ih _ hfk

lemma injN_le_one : ∀ (ls : List (List Char)) (st : ApSt), injN st ls ≤ 1 := by
  intro ls
  induction ls with
  | nil => intro st; exact Nat.zero_le 1
  | cons l rest ih =>
    intro st
    by_cases hh : (rustTrim l).head? = some '['
    · rw [injN_cons_hd st l rest hh]
      cases hinj : (st.inTheme && !st.foundKey) with
      | true =>
        rw [if_pos rfl, injN_fk rest _ (by simp [hinj])]
      | false =>
        rw [if_neg (by simp)]
        simpa using ih _
    · by_cases hkp : (st.inTheme && keyPre.isPrefixOf (rustTrim l)) = true
      · rw [injN_cons_key st l rest hh hkp]
        exact ih _
      · rw [injN_cons_other st l rest hh (Bool.eq_false_iff.mpr hkp)]
        exact ih _

lemma fk_stays (θ : List Char) : ∀ (ls : List (List Char)) (st : ApSt),
    st.foundKey = false → countRun st.inTheme ls = 0 → injN st ls = 0 →
    (apLoop θ st ls).2.foundKey = false := by
  intro ls
  induction ls with
  | nil => intro st hfk _ _; exact hfk
  | cons l rest ih =>
    intro st hfk hcnt hinj
    by_cases hh : (rustTrim l).head? = some '['
    · cases hin : st.inTheme with
      | true =>
        rw [injN_cons_hd st l rest hh] at hinj
        simp [hin, hfk] at hinj
      | false =>
        rw [apLoop_cons_hd_noinj θ st l rest hh (by simp [hin])]
        rw [countRun_cons_hd _ _ _ hh] at hcnt
        rw [injN_cons_hd st l rest hh] at hinj
        simp only [hin, Bool.false_and, Bool.or_false,
          if_neg (by decide : ¬(false = true)), Nat.zero_add] at hinj
        exact ih ⟨rustTrim l == hdTheme,
          st.foundSection || (rustTrim l == hdTheme), st.foundKey⟩ hfk hcnt hinj
    · cases hkp : (st.inTheme && keyPre.isPrefixOf (rustTrim l)) with
      | true =>
        have hkp' : st.inTheme = true ∧ keyPre.isPrefixOf (rustTrim l) = true := by
          rw [Bool.and_eq_true] at hkp
          exact hkp
        rw [countRun_cons_key _ _ _ hh (by rw [hkp'.1]; simp [hkp'.2])] at hcnt
        simp at hcnt
      | false =>
        rw [apLoop_cons_other θ st l rest hh hkp]
        rw [countRun_cons_other _ _ _ hh hkp] at hcnt
        rw [injN_cons_other st l rest hh hkp] at hinj
        exact ih st hfk hcnt hinj

lemma fk_cases (θ : List Char) : ∀ (ls : List (List Char)) (st : ApSt),
    (apLoop θ st ls).2.foundKey = true →
    st.foundKey = true ∨ 1 ≤ countRun st.inTheme ls ∨ 1 ≤ injN st ls := by
  intro ls st hend
  cases hfk : st.foundKey with
  | true => exact Or.inl rfl
  | false =>
    cases hcnt : countRun st.inTheme ls with
    | succ n => exact Or.inr (Or.inl (by omega))
    | zero =>
      cases hinj : injN st ls with
      | succ n => exact Or.inr (Or.inr (by omega))
      | zero =>
        have := fk_stays θ ls st hfk hcnt hinj
        rw [hend] at this
        cases this

lemma fk_false (θ : List Char) : ∀ (ls : List (List Char)) (st : ApSt),
    (apLoop θ st ls).2.foundKey = false →
    countRun st.inTheme ls = 0 ∧ injN st ls = 0 := by
  intro ls
  induction ls with
  | nil => intro st _; exact ⟨rfl, rfl⟩
  | cons l rest ih =>
    intro st hend
    by_cases hh : (rustTrim l).head? = some '['
    · cases hfk : st.foundKey with
      | false =>
        cases hin : st.inTheme with
        | true =>
          rw [apLoop_cons_hd_inj θ st l rest hh hin hfk] at hend
          have hend' : (apLoop θ ⟨rustTrim l == hdTheme,
              st.foundSection || (rustTrim l == hdTheme), true⟩ rest).2.foundKey
              = false := hend
          rw [apLoop_fk_mono θ rest _ rfl] at hend'
          cases hend'
        | false =>
          rw [apLoop_cons_hd_noinj θ st l rest hh (by simp [hin])] at hend
          have hend' : (apLoop θ ⟨rustTrim l == hdTheme,
              st.foundSection || (rustTrim l == hdTheme), st.foundKey⟩ rest).2.foundKey
              = false := hend
          have hih := ih ⟨rustTrim l == hdTheme,
            st.foundSection || (rustTrim l == hdTheme), st.foundKey⟩ hend'
          constructor
          · rw [countRun_cons_hd _ _ _ hh]
            exact hih.1
          · rw [injN_cons_hd st l rest hh, hin]
            simp only [Bool.false_and, Bool.or_false,
              if_neg (by decide : ¬(false = true)), Nat.zero_add]
            exact hih.2
      | true =>
        rw [apLoop_cons_hd_noinj θ st l rest hh (by simp [hfk])] at hend
        have hend' : (apLoop θ ⟨rustTrim l == hdTheme,
            st.foundSection || (rustTrim l == hdTheme), st.foundKey⟩ rest).2.foundKey
            = false := hend
        rw [apLoop_fk_mono θ rest _ (by simp [hfk])] at hend'
        cases hend'
    · cases hkp : (st.inTheme && keyPre.isPrefixOf (rustTrim l)) with
      | true =>
        have hkp' : st.inTheme = true ∧ keyPre.isPrefixOf (rustTrim l) = true := by
          rw [Bool.and_eq_true] at hkp
          exact hkp
        rw [apLoop_cons_key θ st l rest hh hkp'.1 hkp'.2] at hend
        have hend' : (apLoop θ ⟨true, st.foundSection, true⟩ rest).2.foundKey
            = false := hend
        rw [apLoop_fk_mono θ rest _ rfl] at hend'
        cases hend'
      | false =>
        rw [apLoop_cons_other θ st l rest hh hkp] at hend
        have hend' : (apLoop θ st rest).2.foundKey = false := hend
        have hih := ih st hend'
        rw [countRun_cons_other _ _ _ hh hkp, injN_cons_other st l rest hh hkp]
        exact hih

/-! ### Assembling the count and rewrite facts over `applyLines` -/

lemma count_applyLines (θ : List Char) (ls : List (List Char)) :
    countRun false (applyLines θ ls)
      = countRun false ls + injN ⟨false, false, false⟩ ls
        + (if (apLoop θ ⟨false, false, false⟩ ls).2.foundKey = true then 0 else 1) := by
  have hinv := apLoop_stInv θ ls ⟨false, false, false⟩ ⟨by simp, by simp, by simp⟩
  have hcc : countRun false (apLoop θ ⟨false, false, false⟩ ls).1
      = countRun false ls + injN ⟨false, false, false⟩ ls :=
    count_char θ ls ⟨false, false, false⟩
  have hfl : flagRun false (apLoop θ ⟨false, false, false⟩ ls).1
      = (apLoop θ ⟨false, false, false⟩ ls).2.inTheme :=
    flag_sync θ ls ⟨false, false, false⟩
  simp only [applyLines]
  cases hfk : (apLoop θ ⟨false, false, false⟩ ls).2.foundKey with
  | true =>
    have hfs := hinv.2.1 hfk
    rw [hfs]
    simp only [Bool.not_true, Bool.and_false, Bool.true_or, Bool.or_false,
      Bool.false_or, if_false]
    rw [if_neg (show ¬(false = true) by decide),
      if_neg (show ¬(false = true) by decide), hcc, if_pos trivial,
      Nat.add_zero]
  | false =>
    cases hin : (apLoop θ ⟨false, false, false⟩ ls).2.inTheme with
    | true =>
      have hfs := hinv.1 hin
      rw [hfs]
      simp only [Bool.not_false, Bool.not_true, Bool.true_and, Bool.false_and,
        Bool.and_true, Bool.and_false, Bool.or_true, Bool.true_or,
        Bool.or_false, Bool.false_or, Bool.or_self, if_true, if_false]
      rw [if_neg (show ¬(false = true) by decide)]
      rw [countRun_append, hfl, hin, hcc, countRun_keyline θ []]
      rw [if_neg (show ¬(false = true) by decide)]
      simp [countRun]
    | false =>
      simp only [Bool.not_false, Bool.not_true, Bool.true_and, Bool.false_and,
        Bool.and_true, Bool.and_false, Bool.or_true, Bool.true_or,
        Bool.or_false, Bool.false_or, Bool.or_self, if_true, if_false]
      rw [if_neg (show ¬(false = true) by decide)]
      rw [countRun_append, hfl, hin, hcc]
      have hblock : countRun false [[], hdTheme, newKeyLine θ] = 1 := by
        rw [countRun_cons_other _ _ _ (by decide) (by decide),
          countRun_cons_hd _ _ _ (by decide),
          show (rustTrim hdTheme == hdTheme) = true from by decide,
          countRun_keyline θ []]
        rfl
      rw [hblock, if_neg (show ¬(false = true) by decide)]

lemma allKey_run (v : List Char) : ∀ (ls : List (List Char)) (st : ApSt),
    allKeyRun v st.inTheme (apLoop v st ls).1 = true := by
  intro ls
  induction ls with
  | nil => intro st; rfl
  | cons l rest ih =>
    intro st
    by_cases hh : (rustTrim l).head? = some '['
    · cases hfk : st.foundKey with
      | false =>
        cases hin : st.inTheme with
        | true =>
          rw [apLoop_cons_hd_inj v st l rest hh hin hfk]
          show allKeyRun v true (newKeyLine v :: l ::
              (apLoop v ⟨rustTrim l == hdTheme,
                st.foundSection || (rustTrim l == hdTheme), true⟩ rest).1) = true
          rw [allKeyRun_keyline v, allKeyRun_cons_hd _ _ _ _ hh]
          exact ih ⟨rustTrim l == hdTheme,
            st.foundSection || (rustTrim l == hdTheme), true⟩
        | false =>
          rw [apLoop_cons_hd_noinj v st l rest hh (by simp [hin])]
          show allKeyRun v false (l ::
              (apLoop v ⟨rustTrim l == hdTheme,
                st.foundSection || (rustTrim l == hdTheme), st.foundKey⟩ rest).1) = true
          rw [allKeyRun_cons_hd _ _ _ _ hh]
          exact ih ⟨rustTrim l == hdTheme,
            st.foundSection || (rustTrim l == hdTheme), st.foundKey⟩
      | true =>
        rw [apLoop_cons_hd_noinj v st l rest hh (by simp [hfk])]
        show allKeyRun v st.inTheme (l ::
            (apLoop v ⟨rustTrim l == hdTheme,
              st.foundSection || (rustTrim l == hdTheme), st.foundKey⟩ rest).1) = true
        rw [allKeyRun_cons_hd _ _ _ _ hh]
        exact ih ⟨rustTrim l == hdTheme,
          st.foundSection || (rustTrim l == hdTheme), st.foundKey⟩
    · cases hkp : (st.inTheme && keyPre.isPrefixOf (rustTrim l)) with
      | true =>
        have hkp' : st.inTheme = true ∧ keyPre.isPrefixOf (rustTrim l) = true := by
          rw [Bool.and_eq_true] at hkp
          exact hkp
        rw [apLoop_cons_key v st l rest hh hkp'.1 hkp'.2, hkp'.1]
        show allKeyRun v true (newKeyLine v ::
            (apLoop v ⟨true, st.foundSection, true⟩ rest).1) = true
        rw [allKeyRun_keyline v]
        exact ih ⟨true, st.foundSection, true⟩
      | false =>
        rw [apLoop_cons_other v st l rest hh hkp]
        show allKeyRun v st.inTheme (l :: (apLoop v st rest).1) = true
        rw [allKeyRun_cons_other _ _ _ _ hh hkp]
        exact ih st

lemma allKey_applyLines (θ : List Char) (ls : List (List Char)) :
    allKeyRun θ false (applyLines θ ls) = true := by
  have hinv := apLoop_stInv θ ls ⟨false, false, false⟩ ⟨by simp, by simp, by simp⟩
  have hak : allKeyRun θ false (apLoop θ ⟨false, false, false⟩ ls).1 = true :=
    allKey_run θ ls ⟨false, false, false⟩
  have hfl : flagRun false (apLoop θ ⟨false, false, false⟩ ls).1
      = (apLoop θ ⟨false, false, false⟩ ls).2.inTheme :=
    flag_sync θ ls ⟨false, false, false⟩
  simp only [applyLines]
  cases hfk : (apLoop θ ⟨false, false, false⟩ ls).2.foundKey with
  | true =>
    have hfs := hinv.2.1 hfk
    rw [hfs]
    simp only [Bool.not_true, Bool.and_false, Bool.true_or, Bool.or_false,
      Bool.false_or, if_false]
    exact hak
  | false =>
    cases hin : (apLoop θ ⟨false, false, false⟩ ls).2.inTheme with
    | true =>
      have hfs := hinv.1 hin
      rw [hfs]
      simp only [Bool.not_false, Bool.not_true, Bool.true_and, Bool.false_and,
        Bool.and_true, Bool.and_false, Bool.or_true, Bool.true_or,
        Bool.or_false, Bool.false_or, Bool.or_self, if_true, if_false]
      rw [if_neg (show ¬(false = true) by decide)]
      rw [allKeyRun_append, hfl, hin, hak, allKeyRun_keyline θ []]
      rfl
    | false =>
      simp only [Bool.not_false, Bool.not_true, Bool.true_and, Bool.false_and,
        Bool.and_true, Bool.and_false, Bool.or_true, Bool.true_or,
        Bool.or_false, Bool.false_or, Bool.or_self, if_true, if_false]
      rw [if_neg (show ¬(false = true) by decide)]
      rw [allKeyRun_append, hfl, hin, hak]
      have hblock : allKeyRun θ false [[], hdTheme, newKeyLine θ] = true := by
        rw [allKeyRun_cons_other _ _ _ _ (by decide) (by decide),
          allKeyRun_cons_hd _ _ _ _ (by decide),
          show (rustTrim hdTheme == hdTheme) = true from by decide,
          allKeyRun_keyline θ []]
        rfl
      rw [hblock]
      rfl

lemma countCurrent_apply (doc θ : List Char) (h3 : '\n' ∉ θ) :
    countCurrentInTheme (apply_theme_to_content doc θ)
      = countRun false (applyLines θ (rustLines doc)) := by
  rw [countCurrentInTheme, apply_theme_to_content,
    rustLines_unlinesN _ (applyLines_noLF θ h3 _ (rustLines_noLF doc)),
    countRun_stripCR]

lemma allCurrentEq_apply (doc θ : List Char) (h3 : '\n' ∉ θ) :
    allCurrentEq (apply_theme_to_content doc θ) θ
      = allKeyRun θ false (applyLines θ (rustLines doc)) := by
  rw [allCurrentEq, apply_theme_to_content,
    rustLines_unlinesN _ (applyLines_noLF θ h3 _ (rustLines_noLF doc)),
    allKeyRun_stripCR]

/-- C4 (amended): for a newline-free value, the patched output always contains
at least one `Current=` line inside `[Theme]` sections, at most one more than
the input contained, and exactly one when the input contained none.  The
claimed unconditional at-most-one bound fails: duplicate `Current=` lines in
the input are preserved (each rewritten), see the counterexample. -/
theorem C4_key_count (doc V : List Char) (h3 : '\n' ∉ V) :
    1 ≤ countCurrentInTheme (apply_theme_to_content doc V) ∧
    countCurrentInTheme (apply_theme_to_content doc V)
      ≤ countCurrentInTheme doc + 1 ∧
    (countCurrentInTheme doc = 0 →
      countCurrentInTheme (apply_theme_to_content doc V) = 1) := by
  have hle : injN ⟨false, false, false⟩ (rustLines doc) ≤ 1 :=
    injN_le_one (rustLines doc) _
  rw [countCurrent_apply doc V h3, count_applyLines V (rustLines doc),
    show countCurrentInTheme doc = countRun false (rustLines doc) from rfl]
  cases hfk : (apLoop V ⟨false, false, false⟩ (rustLines doc)).2.foundKey with
  | true =>
    rw [if_pos (rfl : (true : Bool) = true)]
    rcases fk_cases V (rustLines doc) ⟨false, false, false⟩ hfk with h | h | h
    · exact absurd h (by decide)
    · have h' : 1 ≤ countRun false (rustLines doc) := h
      exact ⟨by omega, by omega, fun hz => by omega⟩
    · have h' : 1 ≤ injN ⟨false, false, false⟩ (rustLines doc) := h
      exact ⟨by omega, by omega, fun hz => by omega⟩
  | false =>
    rw [if_neg (show ¬(false = true) by decide)]
    have hzz := fk_false V (rustLines doc) ⟨false, false, false⟩ hfk
    have h1 : countRun false (rustLines doc) = 0 := hzz.1
    have h2 : injN ⟨false, false, false⟩ (rustLines doc) = 0 := hzz.2
    exact ⟨by omega, by omega, fun _ => by omega⟩

/-- C4 witness: the count property at `"[Theme]\nCurrent=old\n"` patched with
`"breeze"`. -/
theorem C4_key_count_witness :
    '\n' ∉ "breeze".toList ∧
    (1 ≤ countCurrentInTheme
        (apply_theme_to_content "[Theme]\nCurrent=old\n".toList "breeze".toList) ∧
     countCurrentInTheme
        (apply_theme_to_content "[Theme]\nCurrent=old\n".toList "breeze".toList)
       ≤ countCurrentInTheme "[Theme]\nCurrent=old\n".toList + 1 ∧
     (countCurrentInTheme "[Theme]\nCurrent=old\n".toList = 0 →
       countCurrentInTheme
          (apply_theme_to_content "[Theme]\nCurrent=old\n".toList "breeze".toList)
         = 1)) :=
  ⟨by decide, C4_key_count "[Theme]\nCurrent=old\n".toList "breeze".toList (by decide)⟩

/-- C4 counterexample: an input with two `Current=` lines in `[Theme]` yields
an output with two such lines — the patch never leaves at most one. -/
theorem C4_counterexample :
    countCurrentInTheme
        (apply_theme_to_content "[Theme]\nCurrent=a\nCurrent=b\n".toList "v".toList)
      = 2 := by
  decide

/-- C5 (amended): the patch rewrites EVERY `Current=` occurrence inside
`[Theme]` sections to the new value — subsequent duplicates are rewritten too,
not copied unchanged — and no occurrence is dropped (the output has at least
as many recognized-key lines as the input). -/
theorem C5_all_occurrences_rewritten (doc V : List Char) (h3 : '\n' ∉ V) :
    allCurrentEq (apply_theme_to_content doc V) V = true ∧
    countCurrentInTheme doc
      ≤ countCurrentInTheme (apply_theme_to_content doc V) := by
  constructor
  · rw [allCurrentEq_apply doc V h3]
    exact allKey_applyLines V (rustLines doc)
  · rw [countCurrent_apply doc V h3, count_applyLines V (rustLines doc),
      show countCurrentInTheme doc = countRun false (rustLines doc) from rfl]
    omega

/-- C5 witness: the rewrite property at `"[General]\nFoo=bar\n"` patched with
`"maya"`. -/
theorem C5_all_occurrences_rewritten_witness :
    '\n' ∉ "maya".toList ∧
    (allCurrentEq
        (apply_theme_to_content "[General]\nFoo=bar\n".toList "maya".toList)
        "maya".toList = true ∧
     countCurrentInTheme "[General]\nFoo=bar\n".toList
       ≤ countCurrentInTheme
           (apply_theme_to_content "[General]\nFoo=bar\n".toList "maya".toList)) :=
  ⟨by decide, C5_all_occurrences_rewritten "[General]\nFoo=bar\n".toList
    "maya".toList (by decide)⟩

/-- C5 counterexample: with two `Current=` lines in `[Theme]`, the second is
NOT copied unchanged — both are rewritten to the new value. -/
theorem C5_counterexample :
    apply_theme_to_content "[Theme]\nCurrent=a\nCurrent=b\n".toList "v".toList
      = "[Theme]\nCurrent=v\nCurrent=v\n".toList ∧
    apply_theme_to_content "[Theme]\nCurrent=a\nCurrent=b\n".toList "v".toList
      ≠ "[Theme]\nCurrent=v\nCurrent=b\n".toList := by
  exact ⟨by decide, by decide⟩

end Themewalker
